import Mathlib

/-!
# eGauge to LoRaWAN bridge: telemetry codec, uplink framing, command
# interpreter and persistent configuration

A shallow embedding of

* `EgaugeParser::Parse` (sort and encode steps) from `EgaugeParse.h`,
* `gencrc`, `sendLoraData`, `loraTask` and the decode loop of `egaugeTask`
  from `main.cpp`,
* `LoadConfigFromFlash`, `SaveConfigToFlash`, `GetCurrentConfig` from
  `my_config.c`.

Conventions.  Bytes and 16/32-bit words are natural numbers, with the
truncation of every narrowing store written out as `% 256` / `% 65536`.
A C byte buffer is the map from an index (counted from the base of the
buffer) to the byte stored there; whether an index stays below the declared
capacity of the array is a property of its own and is not part of the store
operation; the declared size of `lora_body` is enforced by
`sendLoraDataBounded`.  A `float` value is the rational number it denotes.
The single-precision subtraction and multiplication of the encoder round
their result to the binary32 format (`fl32`); the arithmetic of the decode
loop is carried out exactly.
-/

namespace EGauge

/-! ## Byte buffers -/

/-- A byte buffer addressed from its base, as seen through a `uint8_t*`. -/
abbrev Buffer := Nat → Nat

/-- The store `buf[i] = v` into a `uint8_t` buffer (the value is narrowed to 8 bits). -/
def Buffer.write (buf : Buffer) (i v : Nat) : Buffer :=
  fun k => if k = i then v % 256 else buf k

/-- The bytes `buf[off] .. buf[off+len-1]`, as handed to `Serial1.write(buf+off, len)`
or to `gencrc(buf+off, len)`. -/
def Buffer.read (buf : Buffer) (off len : Nat) : List Nat :=
  (List.range len).map (fun k => buf (off + k))

/-- The call `memcpy(buf + off, src, src.length)`. -/
def Buffer.memcpy (buf : Buffer) (off : Nat) : List Nat → Buffer
  | [] => buf
  | b :: bs => Buffer.memcpy (Buffer.write buf off b) (off + 1) bs

/-! ## `EgaugeParser::Parse`: records, sort, encode -/

/-- The local `struct Record { int did; float value; }` of `Parse`. -/
structure Record where
  did : Int
  value : ℚ
deriving DecidableEq, Inhabited

/-- The constant `MAX_RECORDS` of `Parse`. -/
def MAX_RECORDS : Nat := 32

/-- The conversion `(uint16_t)x` of a non-negative floating value: the
fraction is discarded and the result is kept to 16 bits. -/
def toUint16 (x : ℚ) : Nat := ⌊x⌋.toNat % 65536

/-- Rounding of a rational to the nearest integer, ties to the even one. -/
def roundNearestEven (q : ℚ) : ℤ :=
  if q - ⌊q⌋ < 1 / 2 then ⌊q⌋
  else if 1 / 2 < q - ⌊q⌋ then ⌊q⌋ + 1
  else if ⌊q⌋ % 2 = 0 then ⌊q⌋ else ⌊q⌋ + 1

/-- The exponent of the unit in the last place of the binary32 format at the
non-negative value `x`: 24 significant bits, least exponent `-149`. -/
def ulpExp (x : ℚ) : ℤ := max (Int.log 2 x - 23) (-149)

/-- The result of a single-precision (`float`) operation whose exact result
is `x`: the binary32 value nearest to `x`, ties to even, for `x` in the
finite range of the format. -/
def fl32 (x : ℚ) : ℚ :=
  if x < 0 then -((roundNearestEven (-x / 2 ^ ulpExp (-x)) : ℚ) * 2 ^ ulpExp (-x))
  else (roundNearestEven (x / 2 ^ ulpExp x) : ℚ) * 2 ^ ulpExp x

/-- The three assignments `tmp = records[i]; records[i] = records[j]; records[j] = tmp`. -/
def swapRecords (records : List Record) (i j : Nat) : List Record :=
  let tmp := records.getD i default
  let records := records.set i (records.getD j default)
  records.set j tmp

/-- The inner loop `for (j = ...; j < count; ++j) if (records[j].did < records[i].did) swap`,
entered at index `j` with `n` iterations left (`n = count - j`). -/
def sortInner (i : Nat) : Nat → Nat → List Record → List Record
  | 0, _, records => records
  | n + 1, j, records =>
    sortInner i n (j + 1)
      (if (records.getD j default).did < (records.getD i default).did
        then swapRecords records i j else records)

/-- The outer loop `for (i = ...; i < count - 1; ++i)`, entered at index `i`
with `n` iterations left (`n = count - 1 - i`); each iteration runs the inner
loop from `j = i + 1` up to `count`. -/
def sortOuter (count : Nat) : Nat → Nat → List Record → List Record
  | 0, _, records => records
  | n + 1, i, records =>
    sortOuter count n (i + 1) (sortInner i (count - (i + 1)) (i + 1) records)

/-- The block "Sort records by device ID" of `Parse`, on the `count` records
extracted.  For `count = 0` the bound `count - 1` is `-1` and the loop body
never runs, as with the truncated subtraction here. -/
def sortRecords (records : List Record) : List Record :=
  sortOuter records.length (records.length - 1) 0 records

/-- One iteration of the loop "Encode each record into 4 bytes" of `Parse`,
for index `i` and record `r`.  In `(fabs(value) - integer) * 1000` the
operands are `float`, so the difference and the product are each rounded to
binary32 before the conversion to `uint16_t`. -/
def encodeAt (data : Buffer) (i : Nat) (r : Record) : Buffer :=
  let integer := toUint16 |r.value|
  let decimal := toUint16 (fl32 (fl32 (|r.value| - (integer : ℚ)) * 1000))
  let data := data.write (4 * i) (integer >>> 8)
  let data := data.write (4 * i + 1) (integer &&& 0xFF)
  let data := data.write (4 * i + 2) (decimal >>> 8)
  let data := data.write (4 * i + 3) (decimal &&& 0xFF)
  if r.value < 0 then data.write (4 * i) (data (4 * i) ||| 0x80) else data

/-- The loop `for (i = ...; i < count; ++i)` of the encode step, entered at
index `i` with the records still to be encoded. -/
def encodeLoop : List Record → Nat → Buffer → Buffer
  | [], _, data => data
  | r :: rest, i, data => encodeLoop rest (i + 1) (encodeAt data i r)

/-- The sort and encode steps of `Parse` on the extracted records: the value
left in `count` and the buffer `data` after the call. -/
def sortEncode (records : List Record) (data : Buffer) : Nat × Buffer :=
  (records.length, encodeLoop (sortRecords records) 0 data)

/-- The four bytes one iteration of the encode loop leaves for record `r`,
read back from a buffer the iteration has written at index 0. -/
def recordBytes (r : Record) : List Nat :=
  (encodeAt (fun _ => 0) 0 r).read 0 4

/-- The four bytes the claimed record layout asks for, with the fraction
rounded to the nearest thousandth (in exact arithmetic). -/
def roundedRecordBytes (v : ℚ) : List Nat :=
  let m := ⌊|v|⌋.toNat
  let f := (round ((|v| - (m : ℚ)) * 1000)).toNat
  [(if v < 0 then 0x80 else 0) ||| (m >>> 8), m &&& 0xFF, f >>> 8, f &&& 0xFF]

/-! ## `egaugeTask`: the decode loop for the local log -/

/-- The value stored in `sql_data.data[i]` by the loop
`data[i] = (body[2*i] & 0x7F) + body[2*i+1] / 1000.0f; if (body[2*i] & 0x80) data[i] = -data[i]`. -/
def decodeAt (lora_body : Buffer) (i : Nat) : ℚ :=
  let v : ℚ := ((lora_body (2 * i) &&& 0x7F : Nat) : ℚ) + (lora_body (2 * i + 1) : ℚ) / 1000
  if lora_body (2 * i) &&& 0x80 ≠ 0 then -v else v

/-- The entries `sql_data.data[0 .. count-1]` after the decode loop. -/
def decodeLoop (lora_body : Buffer) (count : Nat) : List ℚ :=
  (List.range count).map (decodeAt lora_body)

/-! ## `gencrc`: the CRC-8 of the uplink body -/

/-- The statement `crc = (crc & 0x80) ? (crc << 1) ^ 0x31 : (crc << 1)`, the
result stored back into the `uint8_t crc`. -/
def crcShift (crc : Nat) : Nat :=
  if crc &&& 0x80 ≠ 0 then ((crc <<< 1) ^^^ 0x31) % 256 else (crc <<< 1) % 256

/-- The inner loop `for (j = ...; j < 8; j++)` with `n` iterations left. -/
def crcShifts : Nat → Nat → Nat
  | 0, crc => crc
  | n + 1, crc => crcShifts n (crcShift crc)

/-- One iteration of the outer loop: `crc ^= data[i]` followed by the eight shifts. -/
def crcByte (crc b : Nat) : Nat :=
  crcShifts 8 ((crc ^^^ b) % 256)

/-- The function `gencrc(data, len)` on the bytes `data[0 .. len-1]`. -/
def gencrc (data : List Nat) : Nat :=
  data.foldl crcByte 0xFF

/-! ## `sendLoraData` and the globals it works on -/

/-- The globals `lora_header`, `lora_body`, `lora_data_count`, `error_code`. -/
structure Globals where
  lora_header : Buffer
  lora_body : Buffer
  lora_data_count : Nat
  error_code : Nat

/-- The bytes of the literal `"coed"`. -/
def syncMarker : List Nat := [0x63, 0x6F, 0x65, 0x64]

/-- The bytes of the literal `"su\n"`. -/
def terminator : List Nat := [0x73, 0x75, 0x0A]

/-- The statement `memcpy(lora_header, "coed", 4)` of `setup`. -/
def setup (g : Globals) : Globals :=
  { g with lora_header := g.lora_header.memcpy 0 syncMarker }

/-- The function `sendLoraData`, statement by statement, on `lora_body`
addressed from its base: the globals after the call and the byte strings
handed to `Serial1.write`, in order.  This is what the call does while its
stores stay inside the array; `sendLoraDataBounded` enforces the declared
size of `lora_body`. -/
def sendLoraData (g : Globals) : Globals × List (List Nat) :=
  let header := g.lora_header.write 4 (g.error_code >>> 8)
  let header := header.write 5 (g.error_code &&& 0xFF)
  let header := header.write 6 (g.lora_data_count >>> 8)
  let header := header.write 7 (g.lora_data_count &&& 0xFF)
  let sent := [header.read 0 8]
  if g.error_code ≠ 0 then ({ g with lora_header := header }, sent)
  else
    let body := g.lora_body.memcpy (4 * g.lora_data_count + 1) terminator
    let body := body.write (4 * g.lora_data_count) (gencrc (body.read 0 (4 * g.lora_data_count)))
    ({ g with lora_header := header, lora_body := body },
      sent ++ [body.read 0 (4 * g.lora_data_count + 4)])

/-- The body layout the comment on `lora_body` describes:
`[CRC, values..., 's', 'u', '\n']`. -/
def crcFirstBody (values : List Nat) : List Nat :=
  gencrc values :: (values ++ terminator)

/-! ## `loraTask`: the command interpreter -/

/-- The type `HAL_StatusTypeDef`. -/
inductive HAL_StatusTypeDef where
  | HAL_OK
  | HAL_ERROR
  | HAL_BUSY
  | HAL_TIMEOUT
deriving DecidableEq, Repr

/-- The constant `LORAWAN_EUI_LENGTH`. -/
def LORAWAN_EUI_LENGTH : Nat := 8

/-- The constant `LORAWAN_KEY_LENGTH`. -/
def LORAWAN_KEY_LENGTH : Nat := 16

/-- The constant `CONFIG_MAGIC`. -/
def CONFIG_MAGIC : Nat := 0xDEADBEEF

/-- The constant `FLASH_PAGE_SIZE` of the STM32WL HAL (the value in the
commented-out define of `my_config.c`). -/
def FLASH_PAGE_SIZE : Nat := 2048

/-- The type `my_config_t`. -/
structure my_config_t where
  upload_interval : Nat
  devEui : List Nat
  joinEui : List Nat
  appKey : List Nat
deriving DecidableEq, Repr

/-- The type `config_flash_block_t`. -/
structure config_flash_block_t where
  config : my_config_t
  magic : Nat
deriving DecidableEq, Repr

/-- A `my_config_t` value of the C type: a 32-bit interval and three byte
arrays of the declared lengths. -/
def my_config_t.WellTyped (c : my_config_t) : Prop :=
  c.upload_interval < 2 ^ 32 ∧
  c.devEui.length = LORAWAN_EUI_LENGTH ∧ (∀ b ∈ c.devEui, b < 256) ∧
  c.joinEui.length = LORAWAN_EUI_LENGTH ∧ (∀ b ∈ c.joinEui, b < 256) ∧
  c.appKey.length = LORAWAN_KEY_LENGTH ∧ (∀ b ∈ c.appKey, b < 256)

/-- The value `sizeof(config_flash_block_t)`: 4 + 8 + 8 + 16 + 4 bytes, no padding. -/
def sizeofBlock : Nat := 4 + LORAWAN_EUI_LENGTH + LORAWAN_EUI_LENGTH + LORAWAN_KEY_LENGTH + 4

/-- The four bytes of a `uint32_t` in memory (little-endian, Cortex-M). -/
def le32 (n : Nat) : List Nat :=
  [n % 256, n / 256 % 256, n / 65536 % 256, n / 16777216 % 256]

/-- The `uint32_t` stored in the first four bytes of `bs`. -/
def ofLe32 (bs : List Nat) : Nat :=
  bs.getD 0 0 + 256 * bs.getD 1 0 + 65536 * bs.getD 2 0 + 16777216 * bs.getD 3 0

/-- The object representation of a `config_flash_block_t`, field after field. -/
def blockBytes (b : config_flash_block_t) : List Nat :=
  le32 b.config.upload_interval ++
    (b.config.devEui ++ (b.config.joinEui ++ (b.config.appKey ++ le32 b.magic)))

/-- The `config_flash_block_t` whose object representation is `bs`, field after field. -/
def blockOfBytes (bs : List Nat) : config_flash_block_t :=
  let rest1 := bs.drop 4
  let rest2 := rest1.drop LORAWAN_EUI_LENGTH
  let rest3 := rest2.drop LORAWAN_EUI_LENGTH
  let rest4 := rest3.drop LORAWAN_KEY_LENGTH
  { config :=
      { upload_interval := ofLe32 (bs.take 4)
        devEui := rest1.take LORAWAN_EUI_LENGTH
        joinEui := rest2.take LORAWAN_EUI_LENGTH
        appKey := rest3.take LORAWAN_KEY_LENGTH }
    magic := ofLe32 (rest4.take 4) }

/-- The block left by `memset(&current_config_block, 0, sizeof(config_flash_block_t))`. -/
def zeroBlock : config_flash_block_t :=
  { config :=
      { upload_interval := 0
        devEui := List.replicate LORAWAN_EUI_LENGTH 0
        joinEui := List.replicate LORAWAN_EUI_LENGTH 0
        appKey := List.replicate LORAWAN_KEY_LENGTH 0 }
    magic := 0 }

/-- The flash page at `CONFIG_FLASH_ADDR` (a buffer addressed from that
address) and the static `current_config_block`. -/
structure ConfigState where
  flash : Buffer
  current_config_block : config_flash_block_t

/-- The function `GetCurrentConfig`, as the value it points to. -/
def GetCurrentConfig (st : ConfigState) : my_config_t :=
  st.current_config_block.config

/-- The function `LoadConfigFromFlash`. -/
def LoadConfigFromFlash (st : ConfigState) : HAL_StatusTypeDef × ConfigState :=
  if (blockOfBytes (st.flash.read 0 sizeofBlock)).magic = CONFIG_MAGIC then
    (.HAL_OK, { st with current_config_block := blockOfBytes (st.flash.read 0 sizeofBlock) })
  else
    (.HAL_ERROR, { st with current_config_block := zeroBlock })

/-- What the flash driver reports: whether `HAL_FLASHEx_Erase` returns
`HAL_OK`, and whether the `HAL_FLASH_Program` call for double word `i` does. -/
structure HalOutcome where
  erase : Bool
  program : Nat → Bool

/-- A successful page erase of the configuration page: every byte reads `0xFF`. -/
def erasePage (flash : Buffer) : Buffer :=
  fun k => if k < FLASH_PAGE_SIZE then 0xFF else flash k

/-- The value `src64[i]`: the `uint64_t` stored in bytes `8i .. 8i+7` of the block. -/
def src64 (bs : List Nat) (i : Nat) : Nat :=
  bs.getD (8 * i) 0 + 256 * bs.getD (8 * i + 1) 0 + 256 ^ 2 * bs.getD (8 * i + 2) 0
    + 256 ^ 3 * bs.getD (8 * i + 3) 0 + 256 ^ 4 * bs.getD (8 * i + 4) 0
    + 256 ^ 5 * bs.getD (8 * i + 5) 0 + 256 ^ 6 * bs.getD (8 * i + 6) 0
    + 256 ^ 7 * bs.getD (8 * i + 7) 0

/-- A successful `HAL_FLASH_Program(FLASH_TYPEPROGRAM_DOUBLEWORD, CONFIG_FLASH_ADDR + off, v)`
on an erased double word: its eight bytes are committed together. -/
def HAL_FLASH_Program (flash : Buffer) (off v : Nat) : Buffer :=
  flash.memcpy off ((List.range 8).map (fun k => v / 256 ^ k % 256))

/-- The loop `for (i = ...; i < sizeof(block) / 8; i++)` of `SaveConfigToFlash`
entered at index `i` with `n` iterations left: `false` as soon as a program
call fails (the double word of the failed call is left as it was). -/
def programLoop (hal : HalOutcome) (bs : List Nat) : Nat → Nat → Buffer → Bool × Buffer
  | 0, _, flash => (true, flash)
  | n + 1, i, flash =>
    if hal.program i then
      programLoop hal bs n (i + 1) (HAL_FLASH_Program flash (i * 8) (src64 bs i))
    else (false, flash)

/-- The function `SaveConfigToFlash` (a failed erase leaves the page as it was). -/
def SaveConfigToFlash (hal : HalOutcome) (cfg : my_config_t) (st : ConfigState) :
    HAL_StatusTypeDef × ConfigState :=
  if hal.erase then
    let block : config_flash_block_t := { config := cfg, magic := CONFIG_MAGIC }
    let r := programLoop hal (blockBytes block) (sizeofBlock / 8) 0 (erasePage st.flash)
    if r.1 then (.HAL_OK, { flash := r.2, current_config_block := block })
    else (.HAL_ERROR, { st with flash := r.2 })
  else (.HAL_ERROR, st)

/-- A driver on which every operation succeeds. -/
def halOk : HalOutcome := { erase := true, program := fun _ => true }

/-- The flash page after the page erase of `SaveConfigToFlash cfg` and the
programming of only the first `k` double words of its block. -/
def flashAfterPowerLoss (cfg : my_config_t) (k : Nat) (flash : Buffer) : Buffer :=
  (programLoop halOk (blockBytes { config := cfg, magic := CONFIG_MAGIC }) k 0
    (erasePage flash)).2

/-! ## The capacity of `lora_body` -/

/-- The declared size of the global `uint8_t lora_body[100]`. -/
def lora_body_capacity : Nat := 100

/-- The indices of `data` stored to by the encode loop of `Parse` for `count`
records: `4*i`, `4*i+1`, `4*i+2`, `4*i+3` for every `i < count`. -/
def encodeStores (count : Nat) : List Nat :=
  (List.range count).flatMap (fun i => [4 * i, 4 * i + 1, 4 * i + 2, 4 * i + 3])

/-- The indices of `lora_body` stored to by `sendLoraData` when the status is
zero: the terminator at `4*count+1 .. 4*count+3` and the checksum at `4*count`. -/
def sendStores (count : Nat) : List Nat :=
  [4 * count + 1, 4 * count + 2, 4 * count + 3, 4 * count]

/-- The store `lora_body[i] = v` under the declared size of the array:
`none` when `i` lies outside `lora_body[100]`, from where the C program has
no defined behaviour. -/
def storeBody (body : Buffer) (i v : Nat) : Option Buffer :=
  if i < lora_body_capacity then some (body.write i v) else none

/-- The call `memcpy(lora_body + off, src, src.length)` under the declared
size of the array. -/
def memcpyBody (body : Buffer) (off : Nat) : List Nat → Option Buffer
  | [] => some body
  | b :: bs => (storeBody body off b).bind (fun body => memcpyBody body (off + 1) bs)

/-- The function `sendLoraData` under the declared size of `lora_body`: the
byte strings handed to `Serial1.write`, in order, and the globals after the
call.  Once a store leaves the array nothing further is written and the
globals are `none`. -/
def sendLoraDataBounded (g : Globals) : List (List Nat) × Option Globals :=
  let header := g.lora_header.write 4 (g.error_code >>> 8)
  let header := header.write 5 (g.error_code &&& 0xFF)
  let header := header.write 6 (g.lora_data_count >>> 8)
  let header := header.write 7 (g.lora_data_count &&& 0xFF)
  let sent := [header.read 0 8]
  if g.error_code ≠ 0 then (sent, some { g with lora_header := header })
  else
    match memcpyBody g.lora_body (4 * g.lora_data_count + 1) terminator with
    | none => (sent, none)
    | some body =>
      match storeBody body (4 * g.lora_data_count)
          (gencrc (body.read 0 (4 * g.lora_data_count))) with
      | none => (sent, none)
      | some body =>
        (sent ++ [body.read 0 (4 * g.lora_data_count + 4)],
          some { g with lora_header := header, lora_body := body })

/-- The records with ids `0 .. n-1`, each of value 5. -/
def recordsUpTo (n : Nat) : List Record :=
  (List.range n).map (fun (i : Nat) => Record.mk (Int.ofNat i) 5)

/-! ## The sort of `Parse` -/

theorem getD_mid (pre : List Record) (x : Record) (rest : List Record) (k : Nat)
    (hk : k = pre.length) : (pre ++ x :: rest).getD k default = x := by
  subst hk
  induction pre with
  | nil => rfl
  | cons a pre ih => simpa using ih

theorem set_mid (pre : List Record) (x y : Record) (rest : List Record) (k : Nat)
    (hk : k = pre.length) : (pre ++ x :: rest).set k y = pre ++ y :: rest := by
  subst hk
  induction pre with
  | nil => rfl
  | cons a pre ih => simp

theorem sortInner_spec (pre : List Record) (todo : List Record) :
    ∀ (cur : Record) (done : List Record), (∀ z ∈ done, cur.did ≤ z.did) →
    ∃ m r, sortInner pre.length todo.length (pre.length + 1 + done.length)
          (pre ++ cur :: (done ++ todo)) = pre ++ m :: r ∧
        (m :: r).Perm (cur :: (done ++ todo)) ∧ ∀ z ∈ r, m.did ≤ z.did := by
  induction todo with
  | nil =>
    intro cur done hdone
    exact ⟨cur, done, by simp [sortInner], by simp, hdone⟩
  | cons y ys ih =>
    intro cur done hdone
    have hj : (pre ++ cur :: (done ++ y :: ys)).getD (pre.length + 1 + done.length) default = y := by
      have e : pre ++ cur :: (done ++ y :: ys) = (pre ++ cur :: done) ++ y :: ys := by simp
      rw [e]
      exact getD_mid (pre ++ cur :: done) y ys _ (by simp; omega)
    have hi : (pre ++ cur :: (done ++ y :: ys)).getD pre.length default = cur :=
      getD_mid pre cur (done ++ y :: ys) _ rfl
    simp only [List.length_cons, sortInner, hj, hi]
    by_cases hlt : y.did < cur.did
    · have hsw : swapRecords (pre ++ cur :: (done ++ y :: ys)) pre.length
          (pre.length + 1 + done.length) = pre ++ y :: ((done ++ [cur]) ++ ys) := by
        simp only [swapRecords, hj, hi]
        rw [set_mid pre cur y _ _ rfl]
        have e : pre ++ y :: (done ++ y :: ys) = (pre ++ y :: done) ++ y :: ys := by simp
        rw [e, set_mid (pre ++ y :: done) y cur ys _ (by simp; omega)]
        simp
      rw [if_pos hlt, hsw]
      have hdone2 : ∀ z ∈ done ++ [cur], y.did ≤ z.did := by
        intro z hz
        rcases List.mem_append.1 hz with h | h
        · exact le_trans (le_of_lt hlt) (hdone z h)
        · simp at h; subst h; exact le_of_lt hlt
      obtain ⟨m, r, h1, h2, h3⟩ := ih y (done ++ [cur]) hdone2
      refine ⟨m, r, ?_, ?_, h3⟩
      · simpa [Nat.add_assoc] using h1
      · refine h2.trans ?_
        have : (y :: (done ++ [cur] ++ ys)).Perm (y :: cur :: (done ++ ys)) := by
          refine List.Perm.cons _ ?_
          simp
        refine this.trans ((List.Perm.swap cur y _).trans ?_)
        refine List.Perm.cons _ ?_
        exact (@List.perm_middle _ y done ys).symm
    · rw [if_neg hlt]
      have hdone2 : ∀ z ∈ done ++ [y], cur.did ≤ z.did := by
        intro z hz
        rcases List.mem_append.1 hz with h | h
        · exact hdone z h
        · simp at h; subst h; exact not_lt.1 hlt
      obtain ⟨m, r, h1, h2, h3⟩ := ih cur (done ++ [y]) hdone2
      refine ⟨m, r, ?_, ?_, h3⟩
      · simpa [Nat.add_assoc] using h1
      · simpa using h2

theorem sortOuter_spec : ∀ (n : Nat) (pre rest : List Record), rest.length = n + 1 →
    ∃ s, sortOuter (pre.length + (n + 1)) n pre.length (pre ++ rest) = pre ++ s ∧
      s.Perm rest ∧ s.Sorted (fun a b => a.did ≤ b.did) := by
  intro n
  induction n with
  | zero =>
    intro pre rest hlen
    exact ⟨rest, by simp [sortOuter], List.Perm.refl _, by
      match rest, hlen with
      | [x], _ => simp⟩
  | succ n ih =>
    intro pre rest hlen
    match rest, hlen with
    | cur :: todo, hlen =>
      have htodo : todo.length = n + 1 := by simpa using hlen
      obtain ⟨m, r, h1, h2, h3⟩ := sortInner_spec pre todo cur [] (by simp)
      have hcount : pre.length + (n + 1 + 1) - (pre.length + 1) = todo.length := by omega
      simp only [sortOuter, hcount]
      simp only [List.length_nil, Nat.add_zero, List.nil_append] at h1
      rw [h1]
      have hr : r.length = n + 1 := by
        have := h2.length_eq
        simp at this; omega
      obtain ⟨s, g1, g2, g3⟩ := ih (pre ++ [m]) r hr
      refine ⟨m :: s, ?_, ?_, ?_⟩
      · have e1 : pre ++ m :: r = (pre ++ [m]) ++ r := by simp
        have e2 : pre.length + (n + 1 + 1) = (pre ++ [m]).length + (n + 1) := by simp; omega
        have e3 : pre.length + 1 = (pre ++ [m]).length := by simp
        rw [e1, e2, e3, g1]; simp
      · exact (List.Perm.cons m g2).trans h2
      · refine List.sorted_cons.2 ⟨?_, g3⟩
        intro z hz
        exact h3 z (g2.subset hz)

theorem sortRecords_spec (records : List Record) :
    (sortRecords records).Perm records ∧
      (sortRecords records).Sorted (fun a b => a.did ≤ b.did) := by
  match records with
  | [] => simp [sortRecords, sortOuter]
  | x :: xs =>
    obtain ⟨s, h1, h2, h3⟩ := sortOuter_spec xs.length [] (x :: xs) (by simp)
    have : sortRecords (x :: xs) = s := by
      simpa [sortRecords] using h1
    rw [this]; exact ⟨h2, h3⟩

/-! ## The encode loop of `Parse` -/

theorem Buffer.write_same (buf : Buffer) (i v : Nat) : (buf.write i v) i = v % 256 := by
  simp [Buffer.write]

theorem Buffer.write_other (buf : Buffer) (i v k : Nat) (h : k ≠ i) :
    (buf.write i v) k = buf k := by
  simp [Buffer.write, h]

theorem Buffer.read_four (buf : Buffer) (off : Nat) :
    buf.read off 4 = [buf off, buf (off + 1), buf (off + 2), buf (off + 3)] := by
  simp [Buffer.read, List.range_succ]

theorem Buffer.read_add (buf : Buffer) (off a b : Nat) :
    buf.read off (a + b) = buf.read off a ++ buf.read (off + a) b := by
  simp [Buffer.read, List.range_add, Nat.add_assoc]

theorem Buffer.read_congr (buf buf2 : Buffer) (off len : Nat)
    (h : ∀ k, off ≤ k → k < off + len → buf k = buf2 k) :
    buf.read off len = buf2.read off len := by
  simp only [Buffer.read]
  apply List.map_congr_left
  intro k hk
  have := List.mem_range.1 hk
  exact h _ (by omega) (by omega)

/-- The iteration for index `i` leaves every byte outside `4i .. 4i+3` alone. -/
theorem encodeAt_other (data : Buffer) (i : Nat) (r : Record) (k : Nat)
    (hk : k < 4 * i ∨ 4 * i + 4 ≤ k) : encodeAt data i r k = data k := by
  simp only [encodeAt]
  split <;> simp only [Buffer.write] <;>
    simp [show k ≠ 4 * i by omega, show k ≠ 4 * i + 1 by omega,
      show k ≠ 4 * i + 2 by omega, show k ≠ 4 * i + 3 by omega]

/-- The four bytes written by the iteration for index `i` do not depend on
the index or on the previous buffer content. -/
theorem encodeAt_read (data : Buffer) (i : Nat) (r : Record) :
    (encodeAt data i r).read (4 * i) 4 = recordBytes r := by
  simp only [recordBytes, Buffer.read_four, encodeAt]
  split <;> simp [Buffer.write]

theorem encodeLoop_other (rs : List Record) : ∀ (i : Nat) (data : Buffer) (k : Nat),
    (k < 4 * i ∨ 4 * (i + rs.length) ≤ k) → encodeLoop rs i data k = data k := by
  induction rs with
  | nil => intro i data k _; rfl
  | cons r rest ih =>
    intro i data k hk
    simp only [encodeLoop]
    rw [ih (i + 1) _ k (by simp only [List.length_cons] at hk; omega)]
    exact encodeAt_other data i r k (by simp only [List.length_cons] at hk; omega)

theorem encodeLoop_read (rs : List Record) : ∀ (i : Nat) (data : Buffer),
    (encodeLoop rs i data).read (4 * i) (4 * rs.length) = rs.flatMap recordBytes := by
  induction rs with
  | nil => intro i data; simp [Buffer.read]
  | cons r rest ih =>
    intro i data
    have e : 4 * (r :: rest).length = 4 + 4 * rest.length := by simp; omega
    rw [e, Buffer.read_add, List.flatMap_cons]
    simp only [encodeLoop]
    have h2 := ih (i + 1) (encodeAt data i r)
    have e2 : 4 * (i + 1) = 4 * i + 4 := by omega
    rw [e2] at h2
    rw [h2]
    congr 1
    rw [← encodeAt_read data i r]
    apply Buffer.read_congr
    intro k h1 h3
    exact encodeLoop_other rest (i + 1) _ k (by omega)

theorem sortRecords_length (records : List Record) :
    (sortRecords records).length = records.length :=
  (sortRecords_spec records).1.length_eq

theorem sortRecords_strict (records : List Record) (hnodup : (records.map Record.did).Nodup) :
    (sortRecords records).Sorted (fun a b => a.did < b.did) := by
  obtain ⟨hp, hs⟩ := sortRecords_spec records
  have hn : ((sortRecords records).map Record.did).Nodup :=
    ((hp.map Record.did).nodup_iff).2 hnodup
  have hne : (sortRecords records).Pairwise (fun a b => a.did ≠ b.did) :=
    List.pairwise_map.1 hn
  exact (List.Pairwise.and hs hne).imp (fun h => lt_of_le_of_ne h.1 h.2)

theorem sortRecords_perm_eq (records records2 : List Record)
    (hnodup : (records.map Record.did).Nodup) (hperm : records2.Perm records) :
    sortRecords records2 = sortRecords records := by
  have hnodup2 : (records2.map Record.did).Nodup :=
    ((hperm.map Record.did).nodup_iff).2 hnodup
  haveI : IsAntisymm Record (fun a b => a.did < b.did) :=
    ⟨fun a b h1 h2 => absurd h1 (not_lt_of_lt h2)⟩
  refine List.eq_of_perm_of_sorted ?_ (sortRecords_strict _ hnodup2) (sortRecords_strict _ hnodup)
  exact ((sortRecords_spec records2).1.trans hperm).trans (sortRecords_spec records).1.symm

/-- Claim C2 (order independence of the encoder).  For a list of at most 32
records with pairwise distinct, non-negative ids and any permutation
`records2` of it, the sort and encode steps of `Parse` leave the same count
and the same buffer, and the `4 * count` bytes written are the encodings of
the records in ascending id order. -/
theorem sortEncode_order_independent (records records2 : List Record) (data : Buffer)
    (_hlen : records.length ≤ MAX_RECORDS)
    (_hid : ∀ r ∈ records, 0 ≤ r.did)
    (hnodup : (records.map Record.did).Nodup)
    (hperm : records2.Perm records) :
    sortEncode records2 data = sortEncode records data ∧
    ∃ asc : List Record, asc.Perm records ∧ asc.Sorted (fun a b => a.did < b.did) ∧
      (sortEncode records data).1 = asc.length ∧
      (sortEncode records data).2.read 0 (4 * (sortEncode records data).1)
        = asc.flatMap recordBytes := by
  refine ⟨?_, sortRecords records, (sortRecords_spec records).1,
    sortRecords_strict records hnodup, ?_, ?_⟩
  · simp only [sortEncode, sortRecords_perm_eq records records2 hnodup hperm, hperm.length_eq]
  · simp [sortEncode, sortRecords_length]
  · have := encodeLoop_read (sortRecords records) 0 data
    simpa [sortEncode, sortRecords_length] using this

/-- Claim C2 at the records `(2, 3/2), (1, -3)` and their swap. -/
theorem sortEncode_order_independent_witness :
    [Record.mk 2 (3 / 2), Record.mk 1 (-3)].length ≤ MAX_RECORDS ∧
    (∀ r ∈ [Record.mk 2 (3 / 2), Record.mk 1 (-3)], 0 ≤ r.did) ∧
    ([Record.mk 2 (3 / 2), Record.mk 1 (-3)].map Record.did).Nodup ∧
    [Record.mk 1 (-3), Record.mk 2 (3 / 2)].Perm [Record.mk 2 (3 / 2), Record.mk 1 (-3)] ∧
    sortEncode [Record.mk 1 (-3), Record.mk 2 (3 / 2)] (fun _ => 0) =
      sortEncode [Record.mk 2 (3 / 2), Record.mk 1 (-3)] (fun _ => 0) :=
  have h1 : [Record.mk 2 (3 / 2), Record.mk 1 (-3)].length ≤ MAX_RECORDS := by decide
  have h2 : ∀ r ∈ [Record.mk 2 (3 / 2), Record.mk 1 (-3)], 0 ≤ r.did := by
    intro r hr
    simp only [List.mem_cons, List.mem_singleton, List.not_mem_nil, or_false] at hr
    rcases hr with h | h <;> subst h <;> decide
  have h3 : ([Record.mk 2 (3 / 2), Record.mk 1 (-3)].map Record.did).Nodup := by decide
  have h4 : [Record.mk 1 (-3), Record.mk 2 (3 / 2)].Perm
      [Record.mk 2 (3 / 2), Record.mk 1 (-3)] := List.Perm.swap _ _ _
  ⟨h1, h2, h3, h4,
    (sortEncode_order_independent [Record.mk 2 (3 / 2), Record.mk 1 (-3)]
      [Record.mk 1 (-3), Record.mk 2 (3 / 2)] (fun _ => 0) h1 h2 h3 h4).1⟩

/-! ## Rounding to binary32 -/

theorem roundNearestEven_ge (n : ℤ) (q : ℚ) (h : (n : ℚ) ≤ q) : n ≤ roundNearestEven q := by
  have hf : n ≤ ⌊q⌋ := Int.le_floor.2 h
  unfold roundNearestEven
  split_ifs <;> omega

theorem roundNearestEven_le (n : ℤ) (q : ℚ) (h : q ≤ (n : ℚ)) : roundNearestEven q ≤ n := by
  have hf : ⌊q⌋ ≤ n := by
    have := Int.floor_le q
    exact_mod_cast this.trans h
  have hfl := Int.floor_le q
  unfold roundNearestEven
  split_ifs with h1 h2 h3
  · exact hf
  · by_contra hc
    have he : ⌊q⌋ = n := by omega
    rw [he] at h2
    linarith
  · exact hf
  · by_contra hc
    have he : ⌊q⌋ = n := by omega
    rw [he] at h1
    linarith

theorem fl32_of_nonneg (x : ℚ) (hx : 0 ≤ x) :
    fl32 x = (roundNearestEven (x / 2 ^ ulpExp x) : ℚ) * 2 ^ ulpExp x := by
  unfold fl32
  rw [if_neg (not_lt.2 hx)]

theorem two_zpow_pos (e : ℤ) : (0 : ℚ) < 2 ^ e := zpow_pos (by norm_num) e

theorem ulpExp_ge (x : ℚ) : -149 ≤ ulpExp x := le_max_right _ _

theorem ulpExp_le (x : ℚ) (hx : 0 < x) (E : ℤ) (hE : -149 ≤ E) (h : x < 2 ^ (E + 24)) :
    ulpExp x ≤ E := by
  have h2 : Int.log 2 x < E + 24 := by
    rw [← Int.lt_zpow_iff_log_lt (by norm_num) hx]
    exact_mod_cast h
  unfold ulpExp
  exact max_le (by omega) hE

theorem lt_zpow_ulpExp (x : ℚ) : x < 2 ^ (ulpExp x + 24) := by
  have h1 : x < ((2 : ℕ) : ℚ) ^ (Int.log 2 x + 1) := Int.lt_zpow_succ_log_self (by norm_num) x
  have h2 : Int.log 2 x + 1 ≤ ulpExp x + 24 := by
    have : Int.log 2 x - 23 ≤ ulpExp x := le_max_left _ _
    omega
  have h3 : ((2 : ℕ) : ℚ) ^ (Int.log 2 x + 1) ≤ (2 : ℚ) ^ (ulpExp x + 24) := by
    have : (1 : ℚ) ≤ 2 := by norm_num
    exact_mod_cast zpow_le_zpow_right₀ this h2
  exact lt_of_lt_of_le h1 h3

/-- A multiple of a power of two not finer than the unit in the last place at
`x` is not crossed by the rounding of `x`. -/
theorem fl32_grid (x : ℚ) (hx : 0 ≤ x) (M E : ℤ) (hE : ulpExp x ≤ E) :
    ((M : ℚ) * 2 ^ E ≤ x → (M : ℚ) * 2 ^ E ≤ fl32 x) ∧
    (x ≤ (M : ℚ) * 2 ^ E → fl32 x ≤ (M : ℚ) * 2 ^ E) := by
  obtain ⟨k, hk⟩ : ∃ k : ℕ, E = ulpExp x + k := ⟨(E - ulpExp x).toNat, by omega⟩
  have hpos := two_zpow_pos (ulpExp x)
  have hg : (M : ℚ) * 2 ^ E = ((M * 2 ^ k : ℤ) : ℚ) * 2 ^ ulpExp x := by
    rw [hk, zpow_add₀ (by norm_num : (2 : ℚ) ≠ 0), zpow_natCast]
    push_cast
    ring
  rw [hg, fl32_of_nonneg x hx]
  constructor
  · intro h
    have h1 : ((M * 2 ^ k : ℤ) : ℚ) ≤ x / 2 ^ ulpExp x := (le_div_iff₀ hpos).2 h
    have h2 := roundNearestEven_ge _ _ h1
    have h3 : ((M * 2 ^ k : ℤ) : ℚ) ≤ (roundNearestEven (x / 2 ^ ulpExp x) : ℚ) := by
      exact_mod_cast h2
    exact mul_le_mul_of_nonneg_right h3 (le_of_lt hpos)
  · intro h
    have h1 : x / 2 ^ ulpExp x ≤ ((M * 2 ^ k : ℤ) : ℚ) := (div_le_iff₀ hpos).2 h
    have h2 := roundNearestEven_le _ _ h1
    have h3 : (roundNearestEven (x / 2 ^ ulpExp x) : ℚ) ≤ ((M * 2 ^ k : ℤ) : ℚ) := by
      exact_mod_cast h2
    exact mul_le_mul_of_nonneg_right h3 (le_of_lt hpos)

theorem roundNearestEven_zero : roundNearestEven 0 = 0 := by
  simp [roundNearestEven]

theorem fl32_zero : fl32 0 = 0 := by
  rw [fl32_of_nonneg 0 (le_refl _)]
  simp [roundNearestEven_zero]

/-- A value with at most 24 significant bits and exponent at least `-149` is
a binary32 value: rounding leaves it as it is. -/
theorem fl32_representable (M E : ℤ) (hM0 : 0 ≤ M) (hM : M < 2 ^ 24) (hE : -149 ≤ E) :
    fl32 ((M : ℚ) * 2 ^ E) = (M : ℚ) * 2 ^ E := by
  rcases eq_or_lt_of_le hM0 with h0 | hpos
  · rw [← h0]; simp [fl32_zero]
  · have hx : (0 : ℚ) < (M : ℚ) * 2 ^ E :=
      mul_pos (by exact_mod_cast hpos) (two_zpow_pos E)
    have hlt : (M : ℚ) * 2 ^ E < 2 ^ (E + 24) := by
      rw [zpow_add₀ (by norm_num : (2 : ℚ) ≠ 0), mul_comm ((2 : ℚ) ^ E)]
      have : (M : ℚ) < 2 ^ (24 : ℤ) := by exact_mod_cast hM
      exact mul_lt_mul_of_pos_right this (two_zpow_pos E)
    have hu := ulpExp_le _ hx E hE hlt
    obtain ⟨g1, g2⟩ := fl32_grid _ (le_of_lt hx) M E hu
    exact le_antisymm (g2 (le_refl _)) (g1 (le_refl _))

/-- A non-negative binary32 value has at most 24 significant bits. -/
theorem representable_of_fl32 (x : ℚ) (hx : 0 ≤ x) (h : fl32 x = x) :
    ∃ M E : ℤ, x = (M : ℚ) * 2 ^ E ∧ 0 ≤ M ∧ M < 2 ^ 24 ∧ -149 ≤ E := by
  have hpos := two_zpow_pos (ulpExp x)
  have hq0 : (0 : ℚ) ≤ x / 2 ^ ulpExp x := div_nonneg hx (le_of_lt hpos)
  have hq1 : x / 2 ^ ulpExp x ≤ (((2 : ℤ) ^ 24 : ℤ) : ℚ) := by
    rw [div_le_iff₀ hpos]
    have := lt_zpow_ulpExp x
    rw [add_comm, zpow_add₀ (by norm_num : (2 : ℚ) ≠ 0)] at this
    have e : (((2 : ℤ) ^ 24 : ℤ) : ℚ) = (2 : ℚ) ^ (24 : ℤ) := by norm_num
    rw [e]; exact le_of_lt this
  have hr0 : 0 ≤ roundNearestEven (x / 2 ^ ulpExp x) :=
    roundNearestEven_ge 0 _ (by exact_mod_cast hq0)
  have hr1 : roundNearestEven (x / 2 ^ ulpExp x) ≤ 2 ^ 24 := roundNearestEven_le _ _ hq1
  have hx2 := fl32_of_nonneg x hx
  rw [h] at hx2
  rcases eq_or_lt_of_le hr1 with heq | hlt
  · refine ⟨2 ^ 23, ulpExp x + 1, ?_, by norm_num, by norm_num, by have := ulpExp_ge x; omega⟩
    have hx3 : x = (((2 : ℤ) ^ 24 : ℤ) : ℚ) * 2 ^ ulpExp x := by rw [← heq]; exact hx2
    rw [zpow_add₀ (by norm_num : (2 : ℚ) ≠ 0), zpow_one]
    calc x = (((2 : ℤ) ^ 24 : ℤ) : ℚ) * 2 ^ ulpExp x := hx3
      _ = (((2 : ℤ) ^ 23 : ℤ) : ℚ) * (2 ^ ulpExp x * 2) := by push_cast; ring
  · exact ⟨_, ulpExp x, hx2, hr0, hlt, ulpExp_ge x⟩

/-- Subtracting its integer part from a non-negative binary32 value is exact. -/
theorem fl32_sub_floor (a : ℚ) (ha : 0 ≤ a) (h : fl32 a = a) :
    fl32 (a - (⌊a⌋ : ℚ)) = a - (⌊a⌋ : ℚ) := by
  obtain ⟨M, E, hx, hM0, hM, hE⟩ := representable_of_fl32 a ha h
  have hfl0 : (0 : ℤ) ≤ ⌊a⌋ := Int.floor_nonneg.2 ha
  have hd0 : (0 : ℚ) ≤ a - (⌊a⌋ : ℚ) := sub_nonneg.2 (Int.floor_le a)
  by_cases hE0 : 0 ≤ E
  · obtain ⟨k, hk⟩ : ∃ k : ℕ, E = k := ⟨E.toNat, by omega⟩
    have hint : a = ((M * 2 ^ k : ℤ) : ℚ) := by
      rw [hx, hk, zpow_natCast]; push_cast; ring
    have : (⌊a⌋ : ℚ) = a := by
      rw [hint, Int.floor_intCast]
    rw [this, sub_self, fl32_zero]
  · obtain ⟨k, hk⟩ : ∃ k : ℕ, E = -(k : ℤ) := ⟨(-E).toNat, by omega⟩
    have hpow : (2 : ℚ) ^ E * 2 ^ k = 1 := by
      rw [hk, zpow_neg, zpow_natCast]
      exact inv_mul_cancel₀ (by positivity)
    have hdiff : a - (⌊a⌋ : ℚ) = ((M - ⌊a⌋ * 2 ^ k : ℤ) : ℚ) * 2 ^ E := by
      push_cast
      rw [sub_mul, ← hx, mul_assoc, mul_comm ((2 : ℚ) ^ k), hpow, mul_one]
    have hM2 : 0 ≤ M - ⌊a⌋ * 2 ^ k := by
      have h1 : (0 : ℚ) ≤ ((M - ⌊a⌋ * 2 ^ k : ℤ) : ℚ) * 2 ^ E := by rw [← hdiff]; exact hd0
      have h2 : (0 : ℚ) ≤ ((M - ⌊a⌋ * 2 ^ k : ℤ) : ℚ) :=
        nonneg_of_mul_nonneg_left h1 (two_zpow_pos E)
      exact_mod_cast h2
    have hM3 : M - ⌊a⌋ * 2 ^ k < 2 ^ 24 := by
      have : 0 ≤ ⌊a⌋ * 2 ^ k := mul_nonneg hfl0 (by positivity)
      omega
    rw [hdiff]
    exact fl32_representable _ E hM2 hM3 hE

/-- The magnitude of a binary32 value is a binary32 value. -/
theorem fl32_abs (v : ℚ) (h : fl32 v = v) : fl32 |v| = |v| := by
  rcases lt_or_le v 0 with hv | hv
  · rw [abs_of_neg hv]
    have h1 : fl32 v = -((roundNearestEven (-v / 2 ^ ulpExp (-v)) : ℚ) * 2 ^ ulpExp (-v)) := by
      unfold fl32; rw [if_pos hv]
    rw [fl32_of_nonneg (-v) (by linarith)]
    linarith
  · rw [abs_of_nonneg hv]; exact h

/-- The truncation of a rounded product lies at the truncation of the exact
product or one above. -/
theorem floor_fl32_bounds (x : ℚ) (hx : 0 ≤ x) (hlt : x < 2 ^ 24) :
    ⌊x⌋ ≤ ⌊fl32 x⌋ ∧ ⌊fl32 x⌋ ≤ ⌊x⌋ + 1 := by
  have hu : ulpExp x ≤ 0 := by
    rcases eq_or_lt_of_le hx with h0 | hpos
    · rw [← h0]; unfold ulpExp; simp [Int.log_of_right_le_zero]
    · have h24 : x < (2 : ℚ) ^ ((0 : ℤ) + 24) := by
        have := hlt
        norm_num at this ⊢
        exact this
      exact ulpExp_le x hpos 0 (by norm_num) h24
  obtain ⟨g1, -⟩ := fl32_grid x hx ⌊x⌋ 0 hu
  obtain ⟨-, g2⟩ := fl32_grid x hx (⌊x⌋ + 1) 0 hu
  simp only [zpow_zero, mul_one] at g1 g2
  have h1 := g1 (Int.floor_le x)
  have h2 := g2 (by push_cast; exact le_of_lt (Int.lt_floor_add_one x))
  constructor
  · exact Int.le_floor.2 h1
  · exact (Int.floor_le_floor h2).trans (by rw [Int.floor_intCast])

/-! ## The bytes of one record -/

theorem toUint16_eq (x : ℚ) (n : Nat) (h1 : (n : ℚ) ≤ x) (h2 : x < (n : ℚ) + 1)
    (h3 : n < 65536) : toUint16 x = n := by
  have hf : ⌊x⌋ = (n : ℤ) := by
    rw [Int.floor_eq_iff]
    exact ⟨by exact_mod_cast h1, by exact_mod_cast h2⟩
  simp [toUint16, hf, Nat.mod_eq_of_lt h3]

theorem floor_toNat_cast (x : ℚ) (hx : 0 ≤ x) : ((⌊x⌋.toNat : ℕ) : ℚ) ≤ x ∧ x < (⌊x⌋.toNat : ℚ) + 1 := by
  have h0 : (0 : ℤ) ≤ ⌊x⌋ := Int.floor_nonneg.2 hx
  have hc : ((⌊x⌋.toNat : ℕ) : ℚ) = ((⌊x⌋ : ℤ) : ℚ) := by
    have := Int.toNat_of_nonneg h0
    exact_mod_cast congrArg (fun z : ℤ => (z : ℚ)) this
  rw [hc]
  exact ⟨Int.floor_le x, Int.lt_floor_add_one x⟩

theorem fl32_neg (x : ℚ) (hx : 0 < x) : fl32 (-x) = -fl32 x := by
  rw [fl32_of_nonneg x (le_of_lt hx)]
  unfold fl32
  rw [if_pos (by linarith), neg_neg]

/-- The value `n / 2 ^ k` with `n < 2 ^ 24` and `k ≤ 149` is a binary32 value. -/
theorem fl32_dyadic (n k : Nat) (hn : n < 2 ^ 24) (hk : k ≤ 149) :
    fl32 ((n : ℚ) / 2 ^ k) = (n : ℚ) / 2 ^ k := by
  have h := fl32_representable (n : ℤ) (-(k : ℤ)) (by omega) (by exact_mod_cast hn) (by omega)
  have e : ((n : ℤ) : ℚ) * 2 ^ (-(k : ℤ)) = (n : ℚ) / 2 ^ k := by
    rw [zpow_neg, zpow_natCast, div_eq_mul_inv]; norm_cast
  rw [e] at h
  exact h

/-- The unit in the last place at a value between `2 ^ l` and `2 ^ (l + 1)`. -/
theorem ulpExp_eq (x : ℚ) (l : ℤ) (h1 : (2 : ℚ) ^ l ≤ x) (h2 : x < 2 ^ (l + 1))
    (h3 : -126 ≤ l) : ulpExp x = l - 23 := by
  have hx : 0 < x := lt_of_lt_of_le (two_zpow_pos l) h1
  have a1 : l ≤ Int.log 2 x := by
    rw [← Int.zpow_le_iff_le_log (by norm_num) hx]; exact_mod_cast h1
  have a2 : Int.log 2 x < l + 1 := by
    rw [← Int.lt_zpow_iff_log_lt (by norm_num) hx]; exact_mod_cast h2
  unfold ulpExp
  rw [max_eq_left (by omega)]
  omega

theorem roundNearestEven_up (q : ℚ) (f : ℤ) (h1 : (f : ℚ) + 1 / 2 < q) (h2 : q < (f : ℚ) + 1) :
    roundNearestEven q = f + 1 := by
  have hf : ⌊q⌋ = f := by
    rw [Int.floor_eq_iff]; exact ⟨by linarith, h2⟩
  unfold roundNearestEven
  rw [hf, if_neg (by linarith), if_pos (by linarith)]

/-- The single-precision product at the `float` nearest to 0.29: the exact
product `289.9999917` is rounded to `290`. -/
theorem fl32_product_029 : fl32 ((9730785 : ℚ) / 33554432 * 1000) = 290 := by
  have hu : ulpExp ((9730785 : ℚ) / 33554432 * 1000) = 8 - 23 :=
    ulpExp_eq _ 8 (by norm_num) (by norm_num) (by norm_num)
  have hr : roundNearestEven ((9730785 : ℚ) / 33554432 * 1000 / 2 ^ (8 - 23 : ℤ)) = 9502719 + 1 :=
    roundNearestEven_up _ 9502719 (by norm_num) (by norm_num)
  rw [fl32_of_nonneg _ (by norm_num), hu, hr]
  norm_num

/-- Claim C10, amended (per-record encoding).  For a record whose value `v` is
a single-precision value with `⌊|v|⌋ < 2 ^ 15`, the four bytes written by the
encode loop are byte 0 = (0x80 if `v < 0`, else 0) or-ed with the high 7 bits
of `⌊|v|⌋`, byte 1 = the low byte of `⌊|v|⌋`, and bytes 2-3 = the big-endian
16-bit value `d` got by truncating the single-precision product
`fl32 ((|v| - ⌊|v|⌋) * 1000)`; `d` is `⌊(|v| - ⌊|v|⌋) * 1000⌋` or one more
(the product can round up to the next integer), not the rounded fraction. -/
theorem encodeAt_float_truncates (data : Buffer) (i : Nat) (r : Record)
    (hfloat : fl32 r.value = r.value) (hint : ⌊|r.value|⌋ < 2 ^ 15) :
    ∃ m d : Nat, (m : ℤ) = ⌊|r.value|⌋ ∧
      (d : ℤ) = ⌊fl32 ((|r.value| - (m : ℚ)) * 1000)⌋ ∧
      ⌊(|r.value| - (m : ℚ)) * 1000⌋ ≤ (d : ℤ) ∧
      (d : ℤ) ≤ ⌊(|r.value| - (m : ℚ)) * 1000⌋ + 1 ∧
      (encodeAt data i r).read (4 * i) 4 =
        [(if r.value < 0 then 0x80 else 0) ||| (m >>> 8), m &&& 0xFF, d >>> 8, d &&& 0xFF] := by
  have habs : (0 : ℚ) ≤ |r.value| := abs_nonneg _
  have h0 : (0 : ℤ) ≤ ⌊|r.value|⌋ := Int.floor_nonneg.2 habs
  obtain ⟨hm1, hm2⟩ := floor_toNat_cast _ habs
  set m := ⌊|r.value|⌋.toNat with hm
  have hmz : (m : ℤ) = ⌊|r.value|⌋ := Int.toNat_of_nonneg h0
  have hmq : (m : ℚ) = ((⌊|r.value|⌋ : ℤ) : ℚ) := by exact_mod_cast congrArg (fun z : ℤ => (z : ℚ)) hmz
  have hmlt : m < 32768 := by
    have : (m : ℤ) < 2 ^ 15 := by rw [hmz]; exact hint
    norm_num at this; exact_mod_cast this
  have hI : toUint16 |r.value| = m := toUint16_eq _ m hm1 hm2 (by omega)
  have hsub : fl32 (|r.value| - (m : ℚ)) = |r.value| - (m : ℚ) := by
    rw [hmq]; exact fl32_sub_floor _ habs (fl32_abs _ hfloat)
  have hx0 : (0 : ℚ) ≤ (|r.value| - (m : ℚ)) * 1000 := by nlinarith
  have hx1 : (|r.value| - (m : ℚ)) * 1000 < 1000 := by nlinarith
  obtain ⟨hb1, hb2⟩ := floor_fl32_bounds _ hx0 (lt_trans hx1 (by norm_num))
  have hfx : ⌊(|r.value| - (m : ℚ)) * 1000⌋ < 1000 := Int.floor_lt.2 (by exact_mod_cast hx1)
  have hfx0 : (0 : ℤ) ≤ ⌊(|r.value| - (m : ℚ)) * 1000⌋ := Int.floor_nonneg.2 hx0
  set d := ⌊fl32 ((|r.value| - (m : ℚ)) * 1000)⌋.toNat with hd
  have hdz : (d : ℤ) = ⌊fl32 ((|r.value| - (m : ℚ)) * 1000)⌋ :=
    Int.toNat_of_nonneg (le_trans hfx0 hb1)
  have hdlt : d ≤ 1000 := by
    have : (d : ℤ) ≤ 1000 := by rw [hdz]; omega
    exact_mod_cast this
  have hD : toUint16 (fl32 ((|r.value| - (m : ℚ)) * 1000)) = d := by
    unfold toUint16; rw [← hd]; exact Nat.mod_eq_of_lt (by omega)
  refine ⟨m, d, hmz, hdz, by rw [hdz]; exact hb1, by rw [hdz]; exact hb2, ?_⟩
  have b0 : m >>> 8 < 128 := by rw [Nat.shiftRight_eq_div_pow]; omega
  have b1 : m &&& 0xFF < 256 := Nat.and_lt_two_pow m (n := 8) (by norm_num)
  have b2 : d >>> 8 < 256 := by rw [Nat.shiftRight_eq_div_pow]; omega
  have b3 : d &&& 0xFF < 256 := Nat.and_lt_two_pow d (n := 8) (by norm_num)
  have b4 : (m >>> 8) ||| 0x80 < 256 :=
    Nat.or_lt_two_pow (n := 8) (by omega) (by norm_num)
  simp only [Buffer.read_four, encodeAt, hI, hsub, hD]
  split
  · simp [Buffer.write, Nat.mod_eq_of_lt b1, Nat.mod_eq_of_lt b2, Nat.mod_eq_of_lt b3,
      Nat.mod_eq_of_lt (show m >>> 8 < 256 by omega), Nat.mod_eq_of_lt b4, Nat.lor_comm]
  · simp [Buffer.write, Nat.mod_eq_of_lt b1, Nat.mod_eq_of_lt b2, Nat.mod_eq_of_lt b3,
      Nat.mod_eq_of_lt (show m >>> 8 < 256 by omega)]

theorem fl32_987_8 : fl32 (-(987 : ℚ) / 8) = -(987 : ℚ) / 8 := by
  have h := fl32_dyadic 987 3 (by norm_num) (by norm_num)
  have e : -(987 : ℚ) / 8 = -(((987 : ℕ) : ℚ) / 2 ^ 3) := by norm_num
  rw [e, fl32_neg _ (by norm_num), h]

/-- Claim C10, amended, at the record `(3, -987/8)` written at index 2. -/
theorem encodeAt_float_truncates_witness :
    fl32 (Record.mk 3 (-(987 : ℚ) / 8)).value = (Record.mk 3 (-(987 : ℚ) / 8)).value ∧
    ⌊|(Record.mk 3 (-(987 : ℚ) / 8)).value|⌋ < 2 ^ 15 ∧
    ∃ m d : Nat, (m : ℤ) = ⌊|(Record.mk 3 (-(987 : ℚ) / 8)).value|⌋ ∧
      (d : ℤ) = ⌊fl32 ((|(Record.mk 3 (-(987 : ℚ) / 8)).value| - (m : ℚ)) * 1000)⌋ ∧
      ⌊(|(Record.mk 3 (-(987 : ℚ) / 8)).value| - (m : ℚ)) * 1000⌋ ≤ (d : ℤ) ∧
      (d : ℤ) ≤ ⌊(|(Record.mk 3 (-(987 : ℚ) / 8)).value| - (m : ℚ)) * 1000⌋ + 1 ∧
      (encodeAt (fun _ => 0) 2 (Record.mk 3 (-(987 : ℚ) / 8))).read (4 * 2) 4 =
        [(if (Record.mk 3 (-(987 : ℚ) / 8)).value < 0 then 0x80 else 0) ||| (m >>> 8),
          m &&& 0xFF, d >>> 8, d &&& 0xFF] :=
  have hf : fl32 (Record.mk 3 (-(987 : ℚ) / 8)).value = (Record.mk 3 (-(987 : ℚ) / 8)).value :=
    fl32_987_8
  have h : ⌊|(Record.mk 3 (-(987 : ℚ) / 8)).value|⌋ < 2 ^ 15 := by
    rw [Int.floor_lt]; norm_num [abs_lt]
  ⟨hf, h, encodeAt_float_truncates (fun _ => 0) 2 (Record.mk 3 (-(987 : ℚ) / 8)) hf h⟩

/-- The record bytes of the value 31/32. -/
theorem recordBytes_31_32 : recordBytes (Record.mk 0 (31 / 32)) = [0, 0, 3, 200] := by
  have hI : toUint16 |(31 / 32 : ℚ)| = 0 :=
    toUint16_eq _ 0 (by norm_num) (by norm_num [abs_lt]) (by norm_num)
  have hS : fl32 (|(31 / 32 : ℚ)| - ((0 : ℕ) : ℚ)) = 31 / 32 := by
    have h := fl32_dyadic 31 5 (by norm_num) (by norm_num)
    have e : |(31 / 32 : ℚ)| - ((0 : ℕ) : ℚ) = ((31 : ℕ) : ℚ) / 2 ^ 5 := by
      norm_num [abs_of_nonneg]
    rw [e, h]; norm_num
  have hP : fl32 ((31 / 32 : ℚ) * 1000) = 3875 / 4 := by
    have h := fl32_dyadic 3875 2 (by norm_num) (by norm_num)
    have e : (31 / 32 : ℚ) * 1000 = ((3875 : ℕ) : ℚ) / 2 ^ 2 := by norm_num
    rw [e, h]; norm_num
  have hD : toUint16 (3875 / 4 : ℚ) = 968 :=
    toUint16_eq _ 968 (by norm_num) (by norm_num) (by norm_num)
  simp only [recordBytes, Buffer.read_four, encodeAt, hI, hS, hP, hD]
  norm_num [Buffer.write]
  decide

/-- The record bytes of the `float` nearest to 0.29: the single-precision
product rounds up to 290, so the fraction bytes are `01 22`. -/
theorem recordBytes_029 :
    recordBytes (Record.mk 0 (9730785 / 33554432)) = [0, 0, 1, 34] ∧
    ⌊((9730785 : ℚ) / 33554432) * 1000⌋ = 289 := by
  have hI : toUint16 |(9730785 / 33554432 : ℚ)| = 0 :=
    toUint16_eq _ 0 (by norm_num) (by norm_num [abs_lt]) (by norm_num)
  have hS : fl32 (|(9730785 / 33554432 : ℚ)| - ((0 : ℕ) : ℚ)) = 9730785 / 33554432 := by
    have h := fl32_dyadic 9730785 25 (by norm_num) (by norm_num)
    have e : |(9730785 / 33554432 : ℚ)| - ((0 : ℕ) : ℚ) = ((9730785 : ℕ) : ℚ) / 2 ^ 25 := by
      norm_num [abs_of_nonneg]
    rw [e, h]; norm_num
  have hD : toUint16 (290 : ℚ) = 290 :=
    toUint16_eq _ 290 (by norm_num) (by norm_num) (by norm_num)
  constructor
  · simp only [recordBytes, Buffer.read_four, encodeAt, hI, hS, fl32_product_029, hD]
    norm_num [Buffer.write]
    decide
  · rw [Int.floor_eq_iff]; norm_num

/-- Claim C10 fails at the value `31/32`: its fraction times 1000 is 968.75,
the encode loop stores 968 (`03 C8`) where rounding asks for 969 (`03 C9`). -/
theorem encodeAt_not_rounded :
    ⌊|(31 / 32 : ℚ)|⌋ < 2 ^ 15 ∧
    (encodeAt (fun _ => 0) 0 (Record.mk 0 (31 / 32))).read (4 * 0) 4 = [0, 0, 3, 200] ∧
    roundedRecordBytes (31 / 32) = [0, 0, 3, 201] ∧
    (encodeAt (fun _ => 0) 0 (Record.mk 0 (31 / 32))).read (4 * 0) 4
      ≠ roundedRecordBytes (31 / 32) := by
  have h1 : (encodeAt (fun _ => 0) 0 (Record.mk 0 (31 / 32))).read (4 * 0) 4 = [0, 0, 3, 200] :=
    recordBytes_31_32
  have hfl : ⌊|(31 / 32 : ℚ)|⌋ = 0 := by
    rw [Int.floor_eq_iff]; norm_num [abs_lt]
  have hr : round ((|(31 / 32 : ℚ)| - ((0 : ℕ) : ℚ)) * 1000) = 969 := by
    rw [round_eq, Int.floor_eq_iff]; norm_num [abs_of_nonneg]
  have h2 : roundedRecordBytes (31 / 32) = [0, 0, 3, 201] := by
    simp only [roundedRecordBytes, hfl, Int.toNat_zero, hr]
    norm_num
    decide
  refine ⟨by rw [hfl]; norm_num, h1, h2, ?_⟩
  rw [h1, h2]; decide

/-! ## Encode followed by the decode loop -/

/-- The record bytes of the value 5. -/
theorem recordBytes_five : recordBytes (Record.mk 0 5) = [0, 5, 0, 0] := by
  have hI : toUint16 |(5 : ℚ)| = 5 :=
    toUint16_eq _ 5 (by norm_num) (by norm_num [abs_lt]) (by norm_num)
  have hS : fl32 (|(5 : ℚ)| - ((5 : ℕ) : ℚ)) = 0 := by
    have e : |(5 : ℚ)| - ((5 : ℕ) : ℚ) = 0 := by norm_num
    rw [e, fl32_zero]
  have hD : toUint16 (fl32 ((0 : ℚ) * 1000)) = 0 := by
    rw [zero_mul, fl32_zero]
    exact toUint16_eq _ 0 (by norm_num) (by norm_num) (by norm_num)
  simp only [recordBytes, Buffer.read_four, encodeAt, hI, hS, hD]
  norm_num [Buffer.write]
  decide

/-- Claim C1 at the single record `(0, 5)`.  The encoder leaves the bytes
`00 05 00 00`; the decode loop reads record 0 from bytes 0 and 1 and stores
`0 + 5/1000`, whose integer part is 0, while the integer part of the value is 5. -/
theorem decode_encode_five :
    (sortEncode [Record.mk 0 5] (fun _ => 0)).1 = 1 ∧
    (sortEncode [Record.mk 0 5] (fun _ => 0)).2.read 0 4 = [0, 5, 0, 0] ∧
    decodeLoop (sortEncode [Record.mk 0 5] (fun _ => 0)).2 1 = [1 / 200] ∧
    ⌊|(1 / 200 : ℚ)|⌋ = 0 ∧ ⌊|(Record.mk 0 5).value|⌋ = 5 := by
  have hs : sortRecords [Record.mk 0 5] = [Record.mk 0 5] := rfl
  have hr : (sortEncode [Record.mk 0 5] (fun _ => 0)).2.read 0 4 = [0, 5, 0, 0] := by
    have := encodeLoop_read [Record.mk 0 5] 0 (fun _ => 0)
    simpa [sortEncode, hs, recordBytes_five] using this
  have hb := hr
  rw [Buffer.read_four] at hb
  simp only [Nat.zero_add, List.cons.injEq, and_true] at hb
  obtain ⟨hb0, hb1, -, -⟩ := hb
  refine ⟨rfl, hr, ?_, ?_, ?_⟩
  · have e : List.range 1 = [0] := rfl
    simp only [decodeLoop, e, List.map_cons, List.map_nil, decodeAt,
      Nat.mul_zero, Nat.zero_add, hb0, hb1]
    norm_num
  · rw [Int.floor_eq_iff]; norm_num [abs_lt]
  · rw [Int.floor_eq_iff]; norm_num [abs_lt]

/-! ## The checksum -/

theorem crcShift_lt (c : Nat) : crcShift c < 256 := by
  unfold crcShift; split <;> exact Nat.mod_lt _ (by norm_num)

set_option maxRecDepth 100000 in
/-- The shift step can be undone: the low bit of the result tells whether the
polynomial was added. -/
theorem crcShift_undo : ∀ c < 256,
    (if crcShift c % 2 = 1 then (crcShift c ^^^ 0x31) / 2 + 128 else crcShift c / 2) = c := by
  decide

theorem crcShift_inj (a b : Nat) (ha : a < 256) (hb : b < 256)
    (h : crcShift a = crcShift b) : a = b := by
  have h1 := crcShift_undo a ha
  have h2 := crcShift_undo b hb
  rw [h] at h1
  exact h1.symm.trans h2

theorem crcShifts_lt (n : Nat) : ∀ c, c < 256 → crcShifts n c < 256 := by
  induction n with
  | zero => intro c hc; exact hc
  | succ n ih => intro c _; exact ih _ (crcShift_lt c)

theorem crcShifts_inj (n : Nat) : ∀ a b, a < 256 → b < 256 →
    crcShifts n a = crcShifts n b → a = b := by
  induction n with
  | zero => intro a b _ _ h; exact h
  | succ n ih =>
    intro a b ha hb h
    exact crcShift_inj a b ha hb (ih _ _ (crcShift_lt a) (crcShift_lt b) h)

theorem crcByte_lt (c b : Nat) : crcByte c b < 256 :=
  crcShifts_lt 8 _ (Nat.mod_lt _ (by norm_num))

theorem xor_byte_lt (a b : Nat) (ha : a < 256) (hb : b < 256) : a ^^^ b < 256 :=
  Nat.xor_lt_two_pow (n := 8) ha hb

theorem crcByte_inj_left (a b x : Nat) (ha : a < 256) (hb : b < 256) (hx : x < 256)
    (h : crcByte a x = crcByte b x) : a = b := by
  have h1 := crcShifts_inj 8 _ _ (Nat.mod_lt _ (by norm_num)) (Nat.mod_lt _ (by norm_num)) h
  rw [Nat.mod_eq_of_lt (xor_byte_lt a x ha hx), Nat.mod_eq_of_lt (xor_byte_lt b x hb hx)] at h1
  exact Nat.xor_left_injective h1

theorem crcByte_inj_right (c x y : Nat) (hc : c < 256) (hx : x < 256) (hy : y < 256)
    (h : crcByte c x = crcByte c y) : x = y := by
  have h1 := crcShifts_inj 8 _ _ (Nat.mod_lt _ (by norm_num)) (Nat.mod_lt _ (by norm_num)) h
  rw [Nat.mod_eq_of_lt (xor_byte_lt c x hc hx), Nat.mod_eq_of_lt (xor_byte_lt c y hc hy)] at h1
  exact Nat.xor_right_injective h1

theorem foldl_crcByte_lt (l : List Nat) : ∀ c, c < 256 → l.foldl crcByte c < 256 := by
  induction l with
  | nil => intro c hc; exact hc
  | cons x xs ih => intro c _; exact ih _ (crcByte_lt c x)

theorem foldl_crcByte_inj (l : List Nat) (hl : ∀ b ∈ l, b < 256) :
    ∀ a b, a < 256 → b < 256 → l.foldl crcByte a = l.foldl crcByte b → a = b := by
  induction l with
  | nil => intro a b _ _ h; exact h
  | cons x xs ih =>
    intro a b ha hb h
    have hx : x < 256 := hl x (List.mem_cons_self _ _)
    have := ih (fun z hz => hl z (List.mem_cons_of_mem _ hz)) _ _
      (crcByte_lt a x) (crcByte_lt b x) h
    exact crcByte_inj_left a b x ha hb hx this

/-- Changing one byte of a buffer changes its checksum. -/
theorem gencrc_set_ne (data : List Nat) (hbytes : ∀ b ∈ data, b < 256) (i : Nat)
    (hi : i < data.length) (v : Nat) (hv : v < 256) (hne : v ≠ data[i]) :
    gencrc (data.set i v) ≠ gencrc data := by
  have hsplit : data = data.take i ++ data[i] :: data.drop (i + 1) := by
    rw [List.getElem_cons_drop, List.take_append_drop]
  have hset : data.set i v = data.take i ++ v :: data.drop (i + 1) := by
    rw [List.set_eq_take_append_cons_drop, if_pos hi]
  intro h
  rw [hset] at h
  conv at h => rhs; rw [hsplit]
  simp only [gencrc, List.foldl_append, List.foldl_cons] at h
  have hc : List.foldl crcByte 0xFF (data.take i) < 256 := foldl_crcByte_lt _ _ (by norm_num)
  have h1 := foldl_crcByte_inj (data.drop (i + 1))
    (fun z hz => hbytes z (List.mem_of_mem_drop hz)) _ _ (crcByte_lt _ _) (crcByte_lt _ _) h
  exact hne (crcByte_inj_right _ _ _ hc hv (hbytes _ (List.getElem_mem _)) h1)

theorem flip_bit_ne (x k : Nat) : x ^^^ (1 <<< k) ≠ x := by
  intro h
  have h2 : x ^^^ (x ^^^ (1 <<< k)) = 1 <<< k := Nat.xor_cancel_left x _
  rw [h, Nat.xor_self] at h2
  rw [Nat.one_shiftLeft] at h2
  exact absurd h2.symm (by positivity)

theorem flip_bit_lt (x k : Nat) (hx : x < 256) (hk : k < 8) : x ^^^ (1 <<< k) < 256 := by
  refine xor_byte_lt _ _ hx ?_
  rw [Nat.one_shiftLeft]
  exact Nat.pow_lt_pow_right (by norm_num) hk |>.trans_le (by norm_num)

/-- Claim C5 (single-bit sensitivity of the checksum).  The checksum of the
empty buffer is `0xFF`, and for every byte buffer, every index `i` in it and
every bit `k < 8`, flipping bit `k` of byte `i` changes the checksum. -/
theorem gencrc_single_bit_flip :
    gencrc [] = 0xFF ∧
    ∀ (data : List Nat), (∀ b ∈ data, b < 256) → ∀ (i : Nat) (hi : i < data.length) (k : Nat),
      k < 8 → gencrc (data.set i (data[i] ^^^ (1 <<< k))) ≠ gencrc data := by
  refine ⟨rfl, ?_⟩
  intro data hbytes i hi k hk
  exact gencrc_set_ne data hbytes i hi _
    (flip_bit_lt _ k (hbytes _ (List.getElem_mem _)) hk) (flip_bit_ne _ k)

/-- Claim C5 at the buffer `12 34 56`, byte 1, bit 5. -/
theorem gencrc_single_bit_flip_witness :
    (∀ b ∈ [0x12, 0x34, 0x56], b < 256) ∧ 1 < [0x12, 0x34, 0x56].length ∧ 5 < 8 ∧
    gencrc ([0x12, 0x34, 0x56].set 1 (0x34 ^^^ (1 <<< 5))) ≠ gencrc [0x12, 0x34, 0x56] :=
  ⟨by decide, by decide, by decide,
    gencrc_single_bit_flip.2 [0x12, 0x34, 0x56] (by decide) 1 (by decide) 5 (by decide)⟩

/-! ## The uplink frame -/

theorem Buffer.read_length (buf : Buffer) (off len : Nat) : (buf.read off len).length = len := by
  simp [Buffer.read]

theorem terminator_get (buf : Buffer) (off k : Nat) :
    (buf.memcpy off terminator) k =
      if k = off then 0x73 else if k = off + 1 then 0x75 else if k = off + 2 then 0x0A
      else buf k := by
  have hk : k = off ∨ k = off + 1 ∨ k = off + 2 ∨ (k ≠ off ∧ k ≠ off + 1 ∧ k ≠ off + 2) := by
    omega
  simp only [terminator, Buffer.memcpy, Buffer.write, Nat.add_assoc]
  rcases hk with h | h | h | ⟨h0, h1, h2⟩
  · subst h; simp
  · subst h; simp
  · subst h; simp
  · simp [h0, h1, h2]

theorem Buffer.read_eight (buf : Buffer) :
    buf.read 0 8 = buf.read 0 4 ++ [buf 4, buf 5, buf 6, buf 7] := by
  simp [Buffer.read, List.range_succ]

/-- The byte strings written by `sendLoraData`, as one expression. -/
theorem sendLoraData_sent (g : Globals) :
    (sendLoraData g).2 =
      ((((g.lora_header.write 4 (g.error_code >>> 8)).write 5 (g.error_code &&& 0xFF)).write 6
        (g.lora_data_count >>> 8)).write 7 (g.lora_data_count &&& 0xFF)).read 0 8 ::
      (if g.error_code ≠ 0 then []
        else [((g.lora_body.memcpy (4 * g.lora_data_count + 1) terminator).write
          (4 * g.lora_data_count)
          (gencrc ((g.lora_body.memcpy (4 * g.lora_data_count + 1) terminator).read 0
            (4 * g.lora_data_count)))).read 0 (4 * g.lora_data_count + 4)]) := by
  unfold sendLoraData
  by_cases h : g.error_code = 0 <;> simp [h]

/-- The body `sendLoraData` writes: the record bytes, then the checksum at
index `4 * count`, then the terminator. -/
theorem sendLoraData_body (g : Globals) (h0 : g.error_code = 0) :
    ∃ header, (sendLoraData g).2 =
      [header, g.lora_body.read 0 (4 * g.lora_data_count) ++
        gencrc (g.lora_body.read 0 (4 * g.lora_data_count)) :: terminator] := by
  have hv : (g.lora_body.memcpy (4 * g.lora_data_count + 1) terminator).read 0
      (4 * g.lora_data_count) = g.lora_body.read 0 (4 * g.lora_data_count) := by
    apply Buffer.read_congr
    intro k _ hk
    rw [terminator_get]
    simp [show k ≠ 4 * g.lora_data_count + 1 by omega,
      show k ≠ 4 * g.lora_data_count + 1 + 1 by omega,
      show k ≠ 4 * g.lora_data_count + 1 + 2 by omega]
  have hcrc : gencrc (g.lora_body.read 0 (4 * g.lora_data_count)) % 256 =
      gencrc (g.lora_body.read 0 (4 * g.lora_data_count)) :=
    Nat.mod_eq_of_lt (foldl_crcByte_lt _ _ (by norm_num))
  have hb : ((g.lora_body.memcpy (4 * g.lora_data_count + 1) terminator).write
      (4 * g.lora_data_count)
      (gencrc ((g.lora_body.memcpy (4 * g.lora_data_count + 1) terminator).read 0
        (4 * g.lora_data_count)))).read 0 (4 * g.lora_data_count + 4) =
      g.lora_body.read 0 (4 * g.lora_data_count) ++
        gencrc (g.lora_body.read 0 (4 * g.lora_data_count)) :: terminator := by
    rw [Buffer.read_add, hv]
    have h1 : ((g.lora_body.memcpy (4 * g.lora_data_count + 1) terminator).write
        (4 * g.lora_data_count) (gencrc (g.lora_body.read 0 (4 * g.lora_data_count)))).read 0
        (4 * g.lora_data_count) = g.lora_body.read 0 (4 * g.lora_data_count) := by
      apply Buffer.read_congr
      intro k _ hk
      rw [Buffer.write_other _ _ _ _ (by omega), terminator_get]
      simp [show k ≠ 4 * g.lora_data_count + 1 by omega,
        show k ≠ 4 * g.lora_data_count + 1 + 1 by omega,
        show k ≠ 4 * g.lora_data_count + 1 + 2 by omega]
    have h2 : ((g.lora_body.memcpy (4 * g.lora_data_count + 1) terminator).write
        (4 * g.lora_data_count) (gencrc (g.lora_body.read 0 (4 * g.lora_data_count)))).read
        (0 + 4 * g.lora_data_count) 4 =
        gencrc (g.lora_body.read 0 (4 * g.lora_data_count)) :: terminator := by
      rw [Buffer.read_four]
      simp only [Nat.zero_add]
      rw [Buffer.write_same, hcrc, Buffer.write_other _ _ _ _ (by omega),
        Buffer.write_other _ _ _ _ (by omega), Buffer.write_other _ _ _ _ (by omega)]
      simp only [terminator_get]
      simp [terminator]
    rw [h1, h2]
  rw [sendLoraData_sent, if_neg (by simp [h0]), hb]
  exact ⟨_, rfl⟩

theorem sendLoraData_header (g : Globals) (hsync : g.lora_header.read 0 4 = syncMarker)
    (hs : g.error_code < 65536) (hn : g.lora_data_count < 65536) :
    ((((g.lora_header.write 4 (g.error_code >>> 8)).write 5 (g.error_code &&& 0xFF)).write 6
        (g.lora_data_count >>> 8)).write 7 (g.lora_data_count &&& 0xFF)).read 0 8 =
      syncMarker ++ [g.error_code / 256, g.error_code % 256,
        g.lora_data_count / 256, g.lora_data_count % 256] := by
  have h1 : ((((g.lora_header.write 4 (g.error_code >>> 8)).write 5
      (g.error_code &&& 0xFF)).write 6 (g.lora_data_count >>> 8)).write 7
      (g.lora_data_count &&& 0xFF)).read 0 4 = syncMarker := by
    rw [← hsync]
    apply Buffer.read_congr
    intro k _ hk
    simp [Buffer.write, show k ≠ 4 by omega, show k ≠ 5 by omega, show k ≠ 6 by omega,
      show k ≠ 7 by omega]
  have a1 : g.error_code &&& 0xFF = g.error_code % 256 :=
    Nat.and_pow_two_sub_one_eq_mod g.error_code 8
  have a2 : g.lora_data_count &&& 0xFF = g.lora_data_count % 256 :=
    Nat.and_pow_two_sub_one_eq_mod g.lora_data_count 8
  have a3 : g.error_code >>> 8 % 256 = g.error_code / 256 := by
    rw [Nat.shiftRight_eq_div_pow]; omega
  have a4 : g.lora_data_count >>> 8 % 256 = g.lora_data_count / 256 := by
    rw [Nat.shiftRight_eq_div_pow]; omega
  rw [Buffer.read_eight, h1]
  simp [Buffer.write, a1, a2, a3, a4]

/-- The frames of `sendLoraData` on `lora_body` addressed from its base: with
the sync marker in place, the 8-byte header `"coed"`, status big-endian,
count big-endian; for a non-zero status nothing else, and for status zero one
body of `1 + 4 * count + 3` bytes.  Whether the stores behind the body stay
inside `lora_body[100]` is settled by `sendLoraDataBounded_in_bounds` and
`sendLoraDataBounded_overrun`. -/
theorem sendLoraData_frame_shape (g : Globals)
    (hsync : g.lora_header.read 0 4 = syncMarker)
    (hs : g.error_code < 65536) (hn : g.lora_data_count < 65536) :
    ∃ rest, (sendLoraData g).2 =
        (syncMarker ++ [g.error_code / 256, g.error_code % 256,
          g.lora_data_count / 256, g.lora_data_count % 256]) :: rest ∧
      (g.error_code ≠ 0 → rest = []) ∧
      (g.error_code = 0 → ∃ body, rest = [body] ∧ body.length = 1 + 4 * g.lora_data_count + 3) := by
  rw [sendLoraData_sent, sendLoraData_header g hsync hs hn]
  by_cases h0 : g.error_code = 0
  · rw [if_neg (by simp [h0])]
    refine ⟨_, rfl, fun h => absurd h0 h, fun _ => ⟨_, rfl, ?_⟩⟩
    rw [Buffer.read_length]; omega
  · rw [if_pos h0]
    exact ⟨[], rfl, fun _ => rfl, fun h => absurd h h0⟩

set_option maxRecDepth 20000 in
/-- Claim C3 at status 0 and one record with bytes `00 05 00 00`.  The body
written is `00 05 00 00 B8 73 75 0A`: the checksum `0xB8` of the record bytes
stands after them, at index `4 * count`, while the layout with the checksum
first is `B8 00 05 00 00 73 75 0A`. -/
theorem sendLoraData_crc_not_first :
    (sendLoraData ⟨Buffer.memcpy (fun _ => 0) 0 syncMarker,
        Buffer.memcpy (fun _ => 0) 0 [0, 5, 0, 0], 1, 0⟩).2 =
      [[0x63, 0x6F, 0x65, 0x64, 0, 0, 0, 1], [0, 5, 0, 0, 184, 0x73, 0x75, 0x0A]] ∧
    gencrc [0, 5, 0, 0] = 184 ∧
    crcFirstBody [0, 5, 0, 0] = [184, 0, 5, 0, 0, 0x73, 0x75, 0x0A] :=
  ⟨by decide, by decide, by decide⟩

/-! ## Programming the flash page -/

theorem Buffer.memcpy_get (l : List Nat) : ∀ (buf : Buffer) (off j : Nat),
    (buf.memcpy off l) j =
      if off ≤ j ∧ j < off + l.length then l.getD (j - off) 0 % 256 else buf j := by
  induction l with
  | nil =>
    intro buf off j
    have h : ¬(off ≤ j ∧ j < off + ([] : List Nat).length) := by simp
    rw [if_neg h]; rfl
  | cons b bs ih =>
    intro buf off j
    simp only [Buffer.memcpy, ih, List.length_cons]
    by_cases h1 : j = off
    · subst h1; simp [Buffer.write]
    · by_cases h2 : off + 1 ≤ j ∧ j < off + 1 + bs.length
      · have e : j - off = (j - (off + 1)) + 1 := by omega
        rw [if_pos h2, if_pos (by omega), e, List.getD_cons_succ]
      · rw [if_neg h2, Buffer.write_other _ _ _ _ h1, if_neg (by omega)]

theorem HAL_FLASH_Program_get (flash : Buffer) (off v j : Nat) :
    (HAL_FLASH_Program flash off v) j =
      if off ≤ j ∧ j < off + 8 then v / 256 ^ (j - off) % 256 else flash j := by
  simp only [HAL_FLASH_Program, Buffer.memcpy_get, List.length_map, List.length_range]
  split
  · next h =>
    have hk : j - off < 8 := by omega
    rw [List.getD_eq_getElem _ _ (by simpa using hk)]
    simp
  · rfl

theorem getD_lt_of_forall (bs : List Nat) (h : ∀ b ∈ bs, b < 256) (k : Nat) :
    bs.getD k 0 < 256 := by
  by_cases hk : k < bs.length
  · rw [List.getD_eq_getElem _ _ hk]; exact h _ (List.getElem_mem _)
  · rw [List.getD_eq_default _ _ (by omega)]; norm_num

theorem le64_byte (a0 a1 a2 a3 a4 a5 a6 a7 : Nat) (h0 : a0 < 256) (h1 : a1 < 256)
    (h2 : a2 < 256) (h3 : a3 < 256) (h4 : a4 < 256) (h5 : a5 < 256) (h6 : a6 < 256)
    (h7 : a7 < 256) (k : Nat) (hk : k < 8) :
    (a0 + 256 * a1 + 256 ^ 2 * a2 + 256 ^ 3 * a3 + 256 ^ 4 * a4 + 256 ^ 5 * a5 + 256 ^ 6 * a6
      + 256 ^ 7 * a7) / 256 ^ k % 256 = [a0, a1, a2, a3, a4, a5, a6, a7].getD k 0 := by
  interval_cases k <;> norm_num <;> omega

theorem src64_byte (bs : List Nat) (h : ∀ b ∈ bs, b < 256) (i k : Nat) (hk : k < 8) :
    src64 bs i / 256 ^ k % 256 = bs.getD (8 * i + k) 0 := by
  unfold src64
  rw [le64_byte _ _ _ _ _ _ _ _ (getD_lt_of_forall bs h _) (getD_lt_of_forall bs h _)
    (getD_lt_of_forall bs h _) (getD_lt_of_forall bs h _) (getD_lt_of_forall bs h _)
    (getD_lt_of_forall bs h _) (getD_lt_of_forall bs h _) (getD_lt_of_forall bs h _) k hk]
  interval_cases k <;> rfl

/-- The program loop never touches a byte outside the double words it is asked to program. -/
theorem programLoop_other (hal : HalOutcome) (bs : List Nat) (n : Nat) :
    ∀ (i : Nat) (flash : Buffer) (j : Nat), (j < 8 * i ∨ 8 * (i + n) ≤ j) →
      (programLoop hal bs n i flash).2 j = flash j := by
  induction n with
  | zero => intro i flash j _; rfl
  | succ n ih =>
    intro i flash j hj
    simp only [programLoop]
    split
    · rw [ih (i + 1) _ j (by omega), HAL_FLASH_Program_get, if_neg (by omega)]
    · rfl

/-- When every program call succeeds the loop reports success and the double
words `i .. i+n-1` hold the bytes of the block. -/
theorem programLoop_ok (hal : HalOutcome) (bs : List Nat) (hbs : ∀ b ∈ bs, b < 256) (n : Nat) :
    ∀ (i : Nat) (flash : Buffer), (∀ t, i ≤ t → t < i + n → hal.program t = true) →
      (programLoop hal bs n i flash).1 = true ∧
      ∀ j, 8 * i ≤ j → j < 8 * (i + n) → (programLoop hal bs n i flash).2 j = bs.getD j 0 := by
  induction n with
  | zero => intro i flash _; exact ⟨rfl, fun j h1 h2 => by omega⟩
  | succ n ih =>
    intro i flash hok
    simp only [programLoop, hok i (le_refl _) (by omega), if_true]
    obtain ⟨g1, g2⟩ := ih (i + 1) (HAL_FLASH_Program flash (i * 8) (src64 bs i))
      (fun t h1 h2 => hok t (by omega) (by omega))
    refine ⟨g1, ?_⟩
    intro j h1 h2
    by_cases hj : 8 * (i + 1) ≤ j
    · exact g2 j hj (by omega)
    · rw [programLoop_other hal bs n (i + 1) _ j (by omega), HAL_FLASH_Program_get,
        if_pos (by omega), src64_byte bs hbs i _ (by omega)]
      congr 1; omega

/-- A failing program call makes the loop report failure. -/
theorem programLoop_fail (hal : HalOutcome) (bs : List Nat) (n : Nat) :
    ∀ (i : Nat) (flash : Buffer), (∃ t, i ≤ t ∧ t < i + n ∧ hal.program t = false) →
      (programLoop hal bs n i flash).1 = false := by
  induction n with
  | zero => intro i flash ⟨t, h1, h2, _⟩; omega
  | succ n ih =>
    intro i flash ⟨t, h1, h2, h3⟩
    simp only [programLoop]
    split
    · next hi =>
      have hne : t ≠ i := by intro e; subst e; rw [hi] at h3; exact absurd h3 (by decide)
      exact ih (i + 1) _ ⟨t, by omega, by omega, h3⟩
    · rfl

/-- A save that is cut short by the failure of program call `k` leaves the
flash page as the erase and the first `k` program calls made it. -/
theorem programLoop_cut (hal : HalOutcome) (bs : List Nat) (k : Nat) :
    ∀ (n i : Nat) (flash : Buffer), k < n →
      (∀ t, i ≤ t → t < i + k → hal.program t = true) → hal.program (i + k) = false →
      (programLoop hal bs n i flash).2 = (programLoop halOk bs k i flash).2 := by
  induction k with
  | zero =>
    intro n i flash hn _ hf
    obtain ⟨m, rfl⟩ := Nat.exists_eq_succ_of_ne_zero (Nat.pos_iff_ne_zero.1 hn)
    simp only [Nat.add_zero] at hf
    simp [programLoop, hf]
  | succ k ih =>
    intro n i flash hn hok hf
    obtain ⟨m, rfl⟩ := Nat.exists_eq_succ_of_ne_zero (Nat.pos_iff_ne_zero.1 (by omega : 0 < n))
    have h0 : hal.program i = true := hok i (le_refl _) (by omega)
    have h1 : halOk.program i = true := rfl
    simp only [programLoop, h0, h1, if_true]
    exact ih m (i + 1) _ (by omega) (fun t a b => hok t (by omega) (by omega))
      (by rw [show i + 1 + k = i + (k + 1) by omega]; exact hf)

theorem magic_of_read (flash : Buffer) :
    (blockOfBytes (flash.read 0 sizeofBlock)).magic =
      flash 36 + 256 * flash 37 + 65536 * flash 38 + 16777216 * flash 39 := by
  simp [blockOfBytes, Buffer.read, sizeofBlock, LORAWAN_EUI_LENGTH, LORAWAN_KEY_LENGTH, ofLe32,
    List.range_succ]

/-! ## Saving and loading the configuration -/

theorem sizeofBlock_words : sizeofBlock / 8 = 5 := rfl

theorem Buffer.read_eq_of_getD (flash : Buffer) (bs : List Nat) (n : Nat) (hlen : bs.length = n)
    (h : ∀ j, j < n → flash j = bs.getD j 0) : flash.read 0 n = bs := by
  apply List.ext_getElem
  · rw [Buffer.read_length, hlen]
  · intro i h1 h2
    rw [Buffer.read_length] at h1
    simp only [Buffer.read, List.getElem_map, List.getElem_range, Nat.zero_add]
    rw [h i h1, List.getD_eq_getElem _ _ h2]

theorem le32_length (n : Nat) : (le32 n).length = 4 := rfl

theorem le32_lt (n : Nat) : ∀ b ∈ le32 n, b < 256 := by
  intro b hb
  simp only [le32, List.mem_cons, List.mem_singleton, List.not_mem_nil, or_false] at hb
  rcases hb with h | h | h | h <;> subst h <;> exact Nat.mod_lt _ (by norm_num)

theorem ofLe32_le32 (n : Nat) (h : n < 2 ^ 32) : ofLe32 (le32 n) = n := by
  simp only [ofLe32, le32, List.getD_cons_zero, List.getD_cons_succ]
  omega

theorem blockBytes_length (b : config_flash_block_t) (h : b.config.WellTyped) :
    (blockBytes b).length = sizeofBlock := by
  obtain ⟨-, h1, -, h2, -, h3, -⟩ := h
  simp [blockBytes, sizeofBlock, le32_length, h1, h2, h3, LORAWAN_EUI_LENGTH,
    LORAWAN_KEY_LENGTH]

theorem blockBytes_lt (b : config_flash_block_t) (h : b.config.WellTyped) :
    ∀ x ∈ blockBytes b, x < 256 := by
  obtain ⟨-, -, h1, -, h2, -, h3⟩ := h
  intro x hx
  simp only [blockBytes, List.mem_append] at hx
  rcases hx with hx | hx | hx | hx | hx
  · exact le32_lt _ x hx
  · exact h1 x hx
  · exact h2 x hx
  · exact h3 x hx
  · exact le32_lt _ x hx

/-- Reading a block back from its object representation gives the block. -/
theorem blockOfBytes_blockBytes (b : config_flash_block_t) (h : b.config.WellTyped)
    (hm : b.magic < 2 ^ 32) : blockOfBytes (blockBytes b) = b := by
  obtain ⟨h0, h1, -, h2, -, h3, -⟩ := h
  obtain ⟨⟨u, dev, join, key⟩, m⟩ := b
  simp only at h0 h1 h2 h3 hm
  simp only [blockOfBytes, blockBytes]
  rw [List.take_left' (le32_length u), List.drop_left' (le32_length u),
    List.take_left' h1, List.drop_left' h1, List.take_left' h2, List.drop_left' h2,
    List.take_left' h3, List.drop_left' h3, List.take_of_length_le (by simp [le32_length]),
    ofLe32_le32 u h0, ofLe32_le32 m hm]

/-- The flash page after a `SaveConfigToFlash` whose erase and first `k`
program calls succeed and whose next program call fails. -/
theorem save_cut_flash (hal : HalOutcome) (cfg : my_config_t) (st : ConfigState) (k : Nat)
    (hk : k < 5) (herase : hal.erase = true) (hok : ∀ t, t < k → hal.program t = true)
    (hf : hal.program k = false) :
    (SaveConfigToFlash hal cfg st).2.flash = flashAfterPowerLoss cfg k st.flash := by
  have h := programLoop_cut hal (blockBytes ⟨cfg, CONFIG_MAGIC⟩) k 5 0 (erasePage st.flash) hk
    (fun t _ h2 => hok t (by omega)) (by simpa using hf)
  have hl := programLoop_fail hal (blockBytes ⟨cfg, CONFIG_MAGIC⟩) 5 0 (erasePage st.flash)
    ⟨k, by omega, by omega, hf⟩
  simp only [SaveConfigToFlash, herase, if_true, sizeofBlock_words, hl, flashAfterPowerLoss]
  exact h

/-- Claim C6 (no block written in part is valid).  After the page erase of
`SaveConfigToFlash cfg` and the programming of only the first `k < 5` double
words, `LoadConfigFromFlash` returns `HAL_ERROR` and leaves the working copy
zero-filled: every byte from `8 * k` on is still erased, so the magic word,
which lies in double word 4, reads `0xFFFFFFFF`. -/
theorem interrupted_program_not_valid (cfg : my_config_t) (k : Nat) (hk : k < 5)
    (st : ConfigState) :
    (LoadConfigFromFlash { st with flash := flashAfterPowerLoss cfg k st.flash }).1
      = HAL_StatusTypeDef.HAL_ERROR ∧
    (LoadConfigFromFlash { st with flash := flashAfterPowerLoss cfg k st.flash }).2.current_config_block
      = zeroBlock ∧
    (∀ j, 8 * k ≤ j → j < FLASH_PAGE_SIZE → flashAfterPowerLoss cfg k st.flash j = 0xFF) ∧
    (blockOfBytes ((flashAfterPowerLoss cfg k st.flash).read 0 sizeofBlock)).magic = 0xFFFFFFFF := by
  have herased : ∀ j, 8 * k ≤ j → j < FLASH_PAGE_SIZE →
      flashAfterPowerLoss cfg k st.flash j = 0xFF := by
    intro j h1 h2
    unfold flashAfterPowerLoss
    rw [programLoop_other _ _ _ _ _ _ (by omega)]
    simp [erasePage, h2]
  have hmagic : (blockOfBytes ((flashAfterPowerLoss cfg k st.flash).read 0 sizeofBlock)).magic
      = 0xFFFFFFFF := by
    rw [magic_of_read, herased 36 (by omega) (by decide), herased 37 (by omega) (by decide),
      herased 38 (by omega) (by decide), herased 39 (by omega) (by decide)]
  have hne : ¬ ((blockOfBytes ((flashAfterPowerLoss cfg k st.flash).read 0 sizeofBlock)).magic
      = CONFIG_MAGIC) := by
    rw [hmagic]; decide
  refine ⟨?_, ?_, herased, hmagic⟩
  · simp only [LoadConfigFromFlash, if_neg hne]
  · simp only [LoadConfigFromFlash, if_neg hne]

/-- Claim C6 with four of the five double words programmed. -/
theorem interrupted_program_not_valid_witness :
    (4 : Nat) < 5 ∧
    (LoadConfigFromFlash { (ConfigState.mk (fun _ => 0) zeroBlock) with
      flash := flashAfterPowerLoss
        (my_config_t.mk 3600 [1, 2, 3, 4, 5, 6, 7, 8] [8, 7, 6, 5, 4, 3, 2, 1]
          (List.replicate 16 0xAB)) 4 (ConfigState.mk (fun _ => 0) zeroBlock).flash }).1
      = HAL_StatusTypeDef.HAL_ERROR :=
  ⟨by decide, (interrupted_program_not_valid
    ⟨3600, [1, 2, 3, 4, 5, 6, 7, 8], [8, 7, 6, 5, 4, 3, 2, 1], List.replicate 16 0xAB⟩ 4
    (by decide) ⟨fun _ => 0, zeroBlock⟩).1⟩

theorem save_ok_flash (hal : HalOutcome) (cfg : my_config_t) (st : ConfigState)
    (hwt : cfg.WellTyped) (herase : hal.erase = true)
    (hprog : ∀ i, i < 5 → hal.program i = true) :
    SaveConfigToFlash hal cfg st =
      (HAL_StatusTypeDef.HAL_OK,
        { flash := (programLoop hal (blockBytes ⟨cfg, CONFIG_MAGIC⟩) 5 0 (erasePage st.flash)).2,
          current_config_block := ⟨cfg, CONFIG_MAGIC⟩ }) ∧
    (programLoop hal (blockBytes ⟨cfg, CONFIG_MAGIC⟩) 5 0 (erasePage st.flash)).2.read 0
      sizeofBlock = blockBytes ⟨cfg, CONFIG_MAGIC⟩ := by
  obtain ⟨g1, g2⟩ := programLoop_ok hal (blockBytes ⟨cfg, CONFIG_MAGIC⟩)
    (blockBytes_lt ⟨cfg, CONFIG_MAGIC⟩ hwt) 5 0 (erasePage st.flash)
    (fun t _ h2 => hprog t (by omega))
  refine ⟨?_, ?_⟩
  · simp only [SaveConfigToFlash, herase, if_true, sizeofBlock_words, g1]
  · have h40 : sizeofBlock = 40 := rfl
    exact Buffer.read_eq_of_getD _ _ _ (blockBytes_length ⟨cfg, CONFIG_MAGIC⟩ hwt)
      (fun j hj => g2 j (by omega) (by omega))

/-- Claim C7 (configuration round trip).  When the erase and the five program
operations succeed, `SaveConfigToFlash cfg` returns `HAL_OK`, and a
`LoadConfigFromFlash` that follows returns `HAL_OK` with `GetCurrentConfig`
equal to `cfg`, read back from the flash page: it does so from every working
copy `cur`, the one left by the save as well as the zeroed one after a reset. -/
theorem save_then_load (hal : HalOutcome) (cfg : my_config_t) (st : ConfigState)
    (hwt : cfg.WellTyped) (herase : hal.erase = true)
    (hprog : ∀ i, i < 5 → hal.program i = true) :
    (SaveConfigToFlash hal cfg st).1 = HAL_StatusTypeDef.HAL_OK ∧
    (LoadConfigFromFlash (SaveConfigToFlash hal cfg st).2).1 = HAL_StatusTypeDef.HAL_OK ∧
    GetCurrentConfig (LoadConfigFromFlash (SaveConfigToFlash hal cfg st).2).2 = cfg ∧
    ∀ cur : config_flash_block_t,
      (LoadConfigFromFlash
        (ConfigState.mk (SaveConfigToFlash hal cfg st).2.flash cur)).1
        = HAL_StatusTypeDef.HAL_OK ∧
      GetCurrentConfig (LoadConfigFromFlash
        (ConfigState.mk (SaveConfigToFlash hal cfg st).2.flash cur)).2 = cfg ∧
      (LoadConfigFromFlash
        (ConfigState.mk (SaveConfigToFlash hal cfg st).2.flash cur)).2.current_config_block
        = ⟨cfg, CONFIG_MAGIC⟩ := by
  obtain ⟨h1, h2⟩ := save_ok_flash hal cfg st hwt herase hprog
  have hb : blockOfBytes (blockBytes ⟨cfg, CONFIG_MAGIC⟩) = ⟨cfg, CONFIG_MAGIC⟩ :=
    blockOfBytes_blockBytes ⟨cfg, CONFIG_MAGIC⟩ hwt (show CONFIG_MAGIC < 2 ^ 32 by decide)
  rw [h1]
  refine ⟨rfl, ?_, ?_, ?_⟩
  · simp only [LoadConfigFromFlash, h2, hb, if_true]
  · simp only [LoadConfigFromFlash, h2, hb, if_true, GetCurrentConfig]
  · intro cur
    simp only [LoadConfigFromFlash, h2, hb, if_true, GetCurrentConfig, and_self]

/-- Claim C7 on a driver whose operations all succeed: the configuration is
read back into a zeroed working copy. -/
theorem save_then_load_witness :
    (my_config_t.mk 3600 [1, 2, 3, 4, 5, 6, 7, 8] [8, 7, 6, 5, 4, 3, 2, 1]
      (List.replicate 16 0xAB)).WellTyped ∧
    halOk.erase = true ∧ (∀ i, i < 5 → halOk.program i = true) ∧
    GetCurrentConfig (LoadConfigFromFlash (ConfigState.mk (SaveConfigToFlash halOk
      (my_config_t.mk 3600 [1, 2, 3, 4, 5, 6, 7, 8] [8, 7, 6, 5, 4, 3, 2, 1]
        (List.replicate 16 0xAB))
      (ConfigState.mk (fun _ => 0) zeroBlock)).2.flash zeroBlock)).2 =
      my_config_t.mk 3600 [1, 2, 3, 4, 5, 6, 7, 8] [8, 7, 6, 5, 4, 3, 2, 1]
        (List.replicate 16 0xAB) :=
  have hwt : (my_config_t.mk 3600 [1, 2, 3, 4, 5, 6, 7, 8] [8, 7, 6, 5, 4, 3, 2, 1]
      (List.replicate 16 0xAB)).WellTyped := by
    simp [my_config_t.WellTyped, LORAWAN_EUI_LENGTH, LORAWAN_KEY_LENGTH]
  ⟨hwt, rfl, fun _ _ => rfl,
    ((save_then_load halOk _ (ConfigState.mk (fun _ => 0) zeroBlock) hwt rfl
      (fun _ _ => rfl)).2.2.2 zeroBlock).2.1⟩

/-- Claim C8 (a failed save leaves the working copy alone).  If the page erase
or one of the five program operations fails, `SaveConfigToFlash cfg` returns
`HAL_ERROR` and `current_config_block`, hence `GetCurrentConfig`, is what it
was before the call. -/
theorem save_failure_keeps_working_copy (hal : HalOutcome) (cfg : my_config_t)
    (st : ConfigState)
    (hfail : hal.erase = false ∨ ∃ i, i < 5 ∧ hal.program i = false) :
    (SaveConfigToFlash hal cfg st).1 = HAL_StatusTypeDef.HAL_ERROR ∧
    (SaveConfigToFlash hal cfg st).2.current_config_block = st.current_config_block ∧
    GetCurrentConfig (SaveConfigToFlash hal cfg st).2 = GetCurrentConfig st := by
  unfold GetCurrentConfig
  by_cases he : hal.erase = true
  · have hp : ∃ i, i < 5 ∧ hal.program i = false := by
      rcases hfail with h | h
      · rw [he] at h; exact absurd h (by decide)
      · exact h
    obtain ⟨i, hi, hpi⟩ := hp
    have hl := programLoop_fail hal (blockBytes ⟨cfg, CONFIG_MAGIC⟩) 5 0 (erasePage st.flash)
      ⟨i, by omega, by omega, hpi⟩
    simp [SaveConfigToFlash, he, sizeofBlock_words, hl]
  · simp [SaveConfigToFlash, he]

/-- Claim C8 on a driver whose fourth program operation fails. -/
theorem save_failure_keeps_working_copy_witness :
    ((HalOutcome.mk true (fun i => decide (i < 3))).erase = false ∨
      ∃ i, i < 5 ∧ (HalOutcome.mk true (fun i => decide (i < 3))).program i = false) ∧
    (SaveConfigToFlash (HalOutcome.mk true (fun i => decide (i < 3)))
      ⟨60, List.replicate 8 1, List.replicate 8 2, List.replicate 16 3⟩
      ⟨fun _ => 0, ⟨⟨3600, List.replicate 8 4, List.replicate 8 5, List.replicate 16 6⟩,
        CONFIG_MAGIC⟩⟩).1 = HAL_StatusTypeDef.HAL_ERROR ∧
    GetCurrentConfig (SaveConfigToFlash (HalOutcome.mk true (fun i => decide (i < 3)))
      ⟨60, List.replicate 8 1, List.replicate 8 2, List.replicate 16 3⟩
      ⟨fun _ => 0, ⟨⟨3600, List.replicate 8 4, List.replicate 8 5, List.replicate 16 6⟩,
        CONFIG_MAGIC⟩⟩).2 =
      ⟨3600, List.replicate 8 4, List.replicate 8 5, List.replicate 16 6⟩ :=
  have hf : (HalOutcome.mk true (fun i => decide (i < 3))).erase = false ∨
      ∃ i, i < 5 ∧ (HalOutcome.mk true (fun i => decide (i < 3))).program i = false :=
    Or.inr ⟨3, by decide, by decide⟩
  have h := save_failure_keeps_working_copy (HalOutcome.mk true (fun i => decide (i < 3)))
    ⟨60, List.replicate 8 1, List.replicate 8 2, List.replicate 16 3⟩
    ⟨fun _ => 0, ⟨⟨3600, List.replicate 8 4, List.replicate 8 5, List.replicate 16 6⟩,
      CONFIG_MAGIC⟩⟩ hf
  ⟨hf, h.1, h.2.2⟩

/-! ## The command interpreter -/

theorem mem_encodeStores (count k : Nat) : k ∈ encodeStores count ↔ k < 4 * count := by
  simp only [encodeStores, List.mem_flatMap, List.mem_range, List.mem_cons, List.mem_singleton,
    List.not_mem_nil, or_false]
  constructor
  · rintro ⟨i, hi, h⟩; omega
  · intro h
    exact ⟨k / 4, by omega, by omega⟩

theorem mem_sendStores (count k : Nat) :
    k ∈ sendStores count ↔ 4 * count ≤ k ∧ k < 4 * count + 4 := by
  simp only [sendStores, List.mem_cons, List.mem_singleton, List.not_mem_nil, or_false]
  omega

/-- The encode loop stores to no index outside `encodeStores`. -/
theorem encodeLoop_frame (rs : List Record) (data : Buffer) (k : Nat)
    (hk : k ∉ encodeStores rs.length) : encodeLoop rs 0 data k = data k := by
  rw [mem_encodeStores] at hk
  exact encodeLoop_other rs 0 data k (Or.inr (by omega))

/-- The call `sendLoraData` stores to no index of `lora_body` outside `sendStores`. -/
theorem sendLoraData_frame (g : Globals) (k : Nat) (hk : k ∉ sendStores g.lora_data_count) :
    (sendLoraData g).1.lora_body k = g.lora_body k := by
  rw [mem_sendStores] at hk
  unfold sendLoraData
  by_cases h : g.error_code = 0
  · simp only [h, ne_eq, not_true_eq_false, if_false]
    rw [Buffer.write_other _ _ _ _ (by omega), terminator_get]
    simp [show k ≠ 4 * g.lora_data_count + 1 by omega,
      show k ≠ 4 * g.lora_data_count + 1 + 1 by omega,
      show k ≠ 4 * g.lora_data_count + 1 + 2 by omega]
  · simp [h]

/-- The stores of the encoder and of `sendLoraData` stay below the declared
capacity exactly for counts up to 24. -/
theorem stores_below_capacity_iff (count : Nat) :
    (∀ k ∈ encodeStores count ++ sendStores count, k < lora_body_capacity) ↔ count ≤ 24 := by
  simp only [List.mem_append, mem_encodeStores, mem_sendStores, lora_body_capacity]
  constructor
  · intro h
    have := h (4 * count + 3) (Or.inr ⟨by omega, by omega⟩)
    omega
  · intro h k hk
    omega

/-- Records that are already in ascending id order are left as they are by the sort. -/
theorem sortRecords_of_sorted (rs : List Record)
    (hs : rs.Sorted (fun a b => a.did < b.did)) : sortRecords rs = rs := by
  have hne : rs.Pairwise (fun a b => a.did ≠ b.did) := List.Pairwise.imp (fun h => ne_of_lt h) hs
  have hnodup : (rs.map Record.did).Nodup := List.pairwise_map.2 hne
  haveI : IsAntisymm Record (fun a b => a.did < b.did) :=
    ⟨fun a b h1 h2 => absurd h1 (not_lt_of_lt h2)⟩
  exact List.eq_of_perm_of_sorted (sortRecords_spec rs).1 (sortRecords_strict rs hnodup) hs

theorem recordsUpTo_sorted (n : Nat) :
    (recordsUpTo n).Sorted (fun a b => a.did < b.did) := by
  unfold recordsUpTo List.Sorted
  rw [List.pairwise_map]
  exact List.Pairwise.imp (fun h => Int.ofNat_lt.2 h) (List.pairwise_lt_range n)

theorem recordsUpTo_succ (n : Nat) :
    recordsUpTo (n + 1) = recordsUpTo n ++ [Record.mk (Int.ofNat n) 5] := by
  simp [recordsUpTo, List.range_succ]

theorem recordsUpTo_length (n : Nat) : (recordsUpTo n).length = n := by
  simp [recordsUpTo]

theorem encodeLoop_append (a b : List Record) : ∀ (i : Nat) (data : Buffer),
    encodeLoop (a ++ b) i data = encodeLoop b (i + a.length) (encodeLoop a i data) := by
  induction a with
  | nil => intro i data; rfl
  | cons r rest ih =>
    intro i data
    have e : i + (r :: rest).length = i + 1 + rest.length := by
      simp only [List.length_cons]; omega
    rw [e]
    exact ih (i + 1) (encodeAt data i r)

/-- The record bytes of the value 5 do not depend on the id. -/
theorem recordBytes_value_five (d : Int) : recordBytes (Record.mk d 5) = [0, 5, 0, 0] :=
  recordBytes_five

/-- The encode loop on the records `0 .. n` stores the low integer byte of
record `n` at index `4 * n + 1`. -/
theorem encode_recordsUpTo_last (n : Nat) (data : Buffer) :
    (sortEncode (recordsUpTo (n + 1)) data).2 (4 * n + 1) = 5 := by
  simp only [sortEncode, sortRecords_of_sorted _ (recordsUpTo_sorted (n + 1))]
  rw [recordsUpTo_succ, encodeLoop_append, recordsUpTo_length]
  simp only [encodeLoop, Nat.zero_add]
  have h := encodeAt_read (encodeLoop (recordsUpTo n) 0 data) n (Record.mk (Int.ofNat n) 5)
  rw [recordBytes_value_five, Buffer.read_four] at h
  simp only [List.cons.injEq, and_true] at h
  exact h.2.1

/-- With status zero `sendLoraData` stores the last terminator byte at index
`4 * count + 3`. -/
theorem sendLoraData_last_store (g : Globals) (h0 : g.error_code = 0) :
    (sendLoraData g).1.lora_body (4 * g.lora_data_count + 3) = 0x0A := by
  unfold sendLoraData
  simp only [h0, ne_eq, not_true_eq_false, if_false]
  rw [Buffer.write_other _ _ _ _ (by omega), terminator_get]
  simp

/-- Claim C11 at 26 records (ids 0 to 25, each of value 5), a count `Parse`
accepts.  The buffer `lora_body` is declared with 100 bytes; the encode loop
stores the low integer byte of record 25 at index 101, `sendLoraData` then
stores the end of the terminator at index 107, and the stores for the 32
records `Parse` accepts reach index 131: neither they nor the body of
`4 * 32 + 4 = 132` bytes fit in the declared capacity. -/
theorem lora_body_overrun :
    lora_body_capacity = 100 ∧
    (sortEncode (recordsUpTo 26) (fun _ => 0)).1 = 26 ∧ 26 ≤ MAX_RECORDS ∧
    (sortEncode (recordsUpTo 26) (fun _ => 0)).2 101 = 5 ∧
    (sendLoraData ⟨fun _ => 0, (sortEncode (recordsUpTo 26) (fun _ => 0)).2, 26, 0⟩).1.lora_body
      107 = 0x0A ∧
    ¬ (∀ k ∈ encodeStores 26 ++ sendStores 26, k < lora_body_capacity) ∧
    ¬ (∀ k ∈ encodeStores MAX_RECORDS ++ sendStores MAX_RECORDS, k < lora_body_capacity) ∧
    ¬ (4 * MAX_RECORDS + 4 ≤ lora_body_capacity) := by
  refine ⟨rfl, ?_, by decide, encode_recordsUpTo_last 25 _, ?_, ?_, ?_, by decide⟩
  · simp [sortEncode, recordsUpTo_length]
  · exact sendLoraData_last_store
      ⟨fun _ => 0, (sortEncode (recordsUpTo 26) (fun _ => 0)).2, 26, 0⟩ rfl
  · rw [stores_below_capacity_iff]; decide
  · rw [stores_below_capacity_iff]; decide

/-! ## `sendLoraData` under the declared size of `lora_body` -/

theorem memcpyBody_terminator (body : Buffer) (off : Nat) :
    memcpyBody body off terminator =
      if off + 3 ≤ lora_body_capacity then some (body.memcpy off terminator) else none := by
  simp only [terminator, memcpyBody, storeBody, Buffer.memcpy]
  by_cases h : off + 3 ≤ lora_body_capacity
  · rw [if_pos h, if_pos (by omega)]
    simp only [Option.bind]
    rw [if_pos (by omega)]
    simp only [Option.bind]
    rw [if_pos (by omega)]
  · rw [if_neg h]
    by_cases h1 : off < lora_body_capacity
    · rw [if_pos h1]
      simp only [Option.bind]
      by_cases h2 : off + 1 < lora_body_capacity
      · rw [if_pos h2]
        simp only [Option.bind]
        rw [if_neg (by omega)]
      · rw [if_neg h2]
    · rw [if_neg h1]; rfl

/-- Inside the array the bounded call is the call on the buffer addressed
from its base. -/
theorem sendLoraDataBounded_eq (g : Globals)
    (h : g.error_code ≠ 0 ∨ 4 * g.lora_data_count + 4 ≤ lora_body_capacity) :
    sendLoraDataBounded g = ((sendLoraData g).2, some (sendLoraData g).1) := by
  unfold sendLoraDataBounded sendLoraData
  by_cases h0 : g.error_code = 0
  · have hfit : 4 * g.lora_data_count + 4 ≤ lora_body_capacity := by
      rcases h with h | h
      · exact absurd h0 h
      · exact h
    simp only [h0, ne_eq, not_true_eq_false, if_false, memcpyBody_terminator]
    rw [if_pos (by omega)]
    simp only [storeBody]
    rw [if_pos (by omega)]
  · simp [h0]

/-- With status zero and a body that does not fit in `lora_body[100]`, the
call writes the header and then stores outside the array: no body is written. -/
theorem sendLoraDataBounded_overrun (g : Globals) (h0 : g.error_code = 0)
    (h : lora_body_capacity < 4 * g.lora_data_count + 4) :
    sendLoraDataBounded g = ([(sendLoraData g).2.headD []], none) := by
  rw [sendLoraData_sent]
  unfold sendLoraDataBounded
  simp only [h0, ne_eq, not_true_eq_false, if_false, memcpyBody_terminator]
  rw [if_neg (by omega)]
  rfl

/-- The frame shape for the counts whose body fits in `lora_body[100]`
(`count ≤ 24`) and for every count when the status is not zero. -/
theorem sendLoraDataBounded_in_bounds (g : Globals)
    (hsync : g.lora_header.read 0 4 = syncMarker)
    (hs : g.error_code < 65536) (hn : g.lora_data_count < 65536)
    (hfit : g.error_code ≠ 0 ∨ g.lora_data_count ≤ 24) :
    (sendLoraDataBounded g).2 = some (sendLoraData g).1 ∧
    ∃ rest, (sendLoraDataBounded g).1 =
        (syncMarker ++ [g.error_code / 256, g.error_code % 256,
          g.lora_data_count / 256, g.lora_data_count % 256]) :: rest ∧
      (g.error_code ≠ 0 → rest = []) ∧
      (g.error_code = 0 → ∃ body, rest = [body] ∧ body.length = 1 + 4 * g.lora_data_count + 3) := by
  have hcap : lora_body_capacity = 100 := rfl
  rw [sendLoraDataBounded_eq g (by rcases hfit with h | h; exact Or.inl h; exact Or.inr (by omega))]
  exact ⟨rfl, sendLoraData_frame_shape g hsync hs hn⟩

/-- Claim C4 at status 0 and 25 records, a count `Parse` accepts.  After
`setup`, `sendLoraData` writes the header `"coed" 00 00 00 19` and then stores
the terminator at `lora_body[101 .. 103]`, outside the 100 bytes of the
array: the body of `1 + 4 * 25 + 3 = 104` bytes is not written. -/
theorem sendLoraData_overrun_at_25 :
    (25 : Nat) ≤ MAX_RECORDS ∧
    lora_body_capacity < 1 + 4 * 25 + 3 ∧
    (memcpyBody (fun _ => 0) (4 * 25 + 1) terminator) = none ∧
    sendLoraDataBounded (setup ⟨fun _ => 0, fun _ => 0, 25, 0⟩) =
      ([[0x63, 0x6F, 0x65, 0x64, 0, 0, 0, 25]], none) := by
  refine ⟨by decide, by decide, rfl, ?_⟩
  rw [sendLoraDataBounded_overrun _ rfl (by decide)]
  refine congrArg (fun f => ([f], (none : Option Globals))) ?_
  decide

end EGauge
